import Mathlib

/-!
Verification of the word-finder repository (trie-driven grid word search).

The definitions below are a shallow embedding of the Python source file
`graphs/word_finder/trie_driven_graph.py`.  Python exceptions are modelled
with `Except Err`: `ValueError` raised by `Trie.insert` / `Trie.search` on an
out-of-alphabet character becomes `Err.alphabetMismatch`; `IndexError` from
list indexing becomes `Err.indexError`; the `ValueError` raised by unpacking
`zip(*valid)` over an empty list in `Grid.search` becomes `Err.emptyUnpack`;
`TypeError` (indexing a list with `None`) becomes `Err.typeError`.
-/

/-- Error kinds corresponding to the Python exceptions the source can raise. -/
inductive Err : Type where
  | alphabetMismatch : Err
  | indexError : Err
  | emptyUnpack : Err
  | typeError : Err
deriving DecidableEq, Repr

/-- Embedding of the Python class `TrieNode`: a list with one `Option` slot per
alphabet letter (`None` = null pointer) and the `isWord` flag. -/
inductive TrieNode : Type where
  | mk : List (Option TrieNode) → Bool → TrieNode

/-- The `children` field of a `TrieNode`. -/
def TrieNode.children : TrieNode → List (Option TrieNode)
  | .mk cs _ => cs

/-- The `isWord` field of a `TrieNode`. -/
def TrieNode.isWord : TrieNode → Bool
  | .mk _ w => w

/-- Embedding of `TrieNode.__init__`: `[None] * n_alpha` children, `isWord = False`. -/
def TrieNode.new (n : Nat) : TrieNode :=
  .mk (List.replicate n none) false

/-- Embedding of `dict.get` on the Python alphabet dictionary
(`alphabet: Dict[str, int]`), modelled as an association list. -/
def alphaGet (alpha : List (Char × Nat)) (c : Char) : Option Nat :=
  (alpha.find? (fun p => p.1 == c)).map (·.2)

/-- Embedding of the loop body of `Trie.insert`, recursing over the remaining
characters of the word.  Mirrors the source: look up the character's index
(raising `ValueError` when absent), index into `children` (Python would raise
`IndexError` out of range), create the missing child node, descend, and mark
the final node with `isWord = True`. -/
def insertFrom (n : Nat) (alpha : List (Char × Nat)) :
    List Char → TrieNode → Except Err TrieNode
  | [], .mk cs _ => .ok (.mk cs true)
  | ch :: rest, .mk cs w =>
    match alphaGet alpha ch with
    | none => .error .alphabetMismatch
    | some i =>
      if h : i < cs.length then
        let child := match cs.get ⟨i, h⟩ with
          | some u => u
          | none => TrieNode.new n
        match insertFrom n alpha rest child with
        | .error e => .error e
        | .ok child' => .ok (.mk (cs.set i (some child')) w)
      else .error .indexError

/-- Embedding of the loop body of `Trie.search`, recursing over the remaining
characters of the key.  A missing child returns `(False, False)` (branch dies
before end of key); at the end of the key it returns
`(node.isWord, any(node.children))`.  The `alphabetMismatch` branch is dead
code under the subset pre-check performed by `Trie.search` (Python would hit a
`TypeError` there, indexing with `None`). -/
def searchFrom (alpha : List (Char × Nat)) :
    List Char → TrieNode → Except Err (Bool × Bool)
  | [], .mk cs w => .ok (w, cs.any Option.isSome)
  | ch :: rest, .mk cs _ =>
    match alphaGet alpha ch with
    | none => .error .typeError
    | some i =>
      if h : i < cs.length then
        match cs.get ⟨i, h⟩ with
        | none => .ok (false, false)
        | some child => searchFrom alpha rest child
      else .error .indexError

/-- Embedding of the Python class `Trie`: the alphabet dictionary, its size
`n_alpha`, and the root node. -/
structure Trie : Type where
  alphabet : List (Char × Nat)
  root : TrieNode

/-- Embedding of `Trie.__init__`: `n_alpha = len(alphabet)` and a fresh root. -/
def Trie.new (alpha : List (Char × Nat)) : Trie :=
  ⟨alpha, TrieNode.new alpha.length⟩

/-- The `n_alpha` attribute: the length of the alphabet dictionary. -/
def Trie.n_alpha (t : Trie) : Nat := t.alphabet.length

/-- Embedding of `Trie.insert`. -/
def Trie.insert (t : Trie) (new_word : List Char) : Except Err Trie :=
  match insertFrom t.n_alpha t.alphabet new_word t.root with
  | .error e => .error e
  | .ok r => .ok ⟨t.alphabet, r⟩

/-- Embedding of `Trie.search`: the guard models
`if not set(key).issubset(self.alphabet): raise ValueError(...)`, then the
trie is walked from the root. -/
def Trie.search (t : Trie) (key : List Char) : Except Err (Bool × Bool) :=
  if key.all (fun c => (alphaGet t.alphabet c).isSome) then
    searchFrom t.alphabet key t.root
  else .error .alphabetMismatch

/-- Embedding of the demo driver's dictionary loading loop
(`for word in word_dictionary: word_trie.insert(word)`): insert a batch of
words, aborting on the first error. -/
def Trie.insertAll (t : Trie) (ws : List (List Char)) : Except Err Trie :=
  ws.foldlM Trie.insert t

example :
    (Trie.new [('a', 0), ('b', 1)]).insert ['a', 'b'] =
      .ok ⟨[('a', 0), ('b', 1)],
        .mk [some (.mk [none, some (.mk [none, none] true)] false), none] false⟩ := by
  rfl

example :
    ((Trie.new [('a', 0), ('b', 1)]).insert ['a', 'b']).map
      (fun t => t.search ['a']) = .ok (.ok (false, true)) := by
  rfl

example :
    ((Trie.new [('a', 0), ('b', 1)]).insert ['a', 'b']).map
      (fun t => t.search ['a', 'b']) = .ok (.ok (true, false)) := by
  rfl

example :
    (Trie.new [('a', 0), ('b', 1)]).search ['c'] = .error .alphabetMismatch := by
  rfl

example :
    (Trie.new [('a', 0), ('b', 1)]).insert ['a', 'c'] = .error .alphabetMismatch := by
  rfl

/-- Embedding of the flattening formula in `Grid.__init__`:
`i = r * self.R + c` (note: the source uses the row count `R` as the stride). -/
def flatIdx (R r c : Nat) : Nat := r * R + c

/-- Boundary check `0 <= x < n` from the neighbor comprehension, over `Int`
because the comprehension ranges reach `-1`. -/
def inb (n : Nat) (x : Int) : Bool := decide (0 ≤ x) && decide (x < (n : Int))

/-- The three offsets `range(v - 1, v + 2)` from the neighbor comprehension. -/
def offs (v : Nat) : List Int := [(v : Int) - 1, (v : Int), (v : Int) + 1]

/-- Embedding of the neighbor comprehension in `Grid.__init__`:
all in-bounds `(x, y)` with `x` in `r-1..r+1` and `y` in `c-1..c+1`, mapped to
`x * R + y` (again with the row count as stride, as in the source). -/
def neighbors (R C r c : Nat) : List Nat :=
  ((List.product (offs r) (offs c)).filter (fun p => inb R p.1 && inb C p.2)).map
    (fun p => p.1.toNat * R + p.2.toNat)

/-- Embedding of `self.graph[i] = [c for c in neighbors if c != i]`:
the adjacency-table entry for cell `(r, c)`. -/
def graphEntry (R C r c : Nat) : List Nat :=
  (neighbors R C r c).filter (fun j => j != flatIdx R r c)

/-- The enumerated cells of the letter matrix, in the order the double loop
`for r, row in enumerate(rows): for c, letter in enumerate(row)` visits them. -/
def gridCells (rows : List (List Char)) : List (Nat × Nat × Char) :=
  rows.enum.flatMap (fun rr => rr.2.enum.map (fun cc => (rr.1, cc.1, cc.2)))

/-- Embedding of the adjacency-table construction: one dictionary assignment
per cell, later assignments overwriting earlier ones with the same flattened
index (modelled by prepending, with lookup returning the first match). -/
def buildGraph (R C : Nat) (cells : List (Nat × Nat × Char)) : List (Nat × List Nat) :=
  cells.foldl (fun g p => (flatIdx R p.1 p.2.1, graphEntry R C p.1 p.2.1) :: g) []

/-- Lookup in the adjacency table; a missing key yields `[]`, matching the
`defaultdict(list)` behaviour of `self.graph`. -/
def graphLookup (g : List (Nat × List Nat)) (i : Nat) : List Nat :=
  match g.find? (fun p => p.1 == i) with
  | some p => p.2
  | none => []

/-- Embedding of the Python class `Grid`: dimensions, flattened letters,
dictionary trie and adjacency table. -/
structure Grid : Type where
  R : Nat
  C : Nat
  letters : List Char
  dictionary : Trie
  graph : List (Nat × List Nat)

/-- Embedding of `Grid.__init__`: `R = len(rows)`, `C = len(rows[0])`, the
letters flattened in visit order, and the adjacency table.  (For `rows = []`
the source would raise an `IndexError` on `rows[0]`; the claims all concern
grids with at least one row, where `headD` agrees with `rows[0]`.) -/
def Grid.ofRows (rows : List (List Char)) (dictionary : Trie) : Grid :=
  { R := rows.length
    C := (rows.headD []).length
    letters := rows.flatten
    dictionary := dictionary
    graph := buildGraph rows.length (rows.headD []).length (gridCells rows) }

/-- Letter-string of a candidate path:
`''.join([self.letters[i] for i in candidate])`, with `IndexError` when an
index falls outside the flattened letter list. -/
def wordOfE (g : Grid) (cand : List Nat) : Except Err (List Char) :=
  cand.mapM (fun i => match g.letters.get? i with
    | some ch => Except.ok ch
    | none => Except.error Err.indexError)

/-- Embedding of the first two lines of `Grid.search`: unused neighbors of the
path's last cell, each appended to the path.  (`path[-1]` on an empty path
would raise in Python; every path the search ever builds is nonempty, and
there `getD` is never exercised.) -/
def Grid.candidates (g : Grid) (path : List Nat) : List (List Nat) :=
  ((graphLookup g.graph ((path.getLast?).getD 0)).filter (fun l => !path.contains l)).map
    (fun l => path ++ [l])

/-- Embedding of the tail of `Grid.search` (the part reached when
`len(path) >= 2`): build the candidate words, query the trie for each,
unpack `zip(*valid)` — raising `ValueError` when `valid` is empty — and
filter words by the first component and candidates by the second. -/
def Grid.checkCandidates (g : Grid) (candidates : List (List Nat)) :
    Except Err (List (List Char) × List (List Nat)) :=
  match candidates.mapM (wordOfE g) with
  | .error e => .error e
  | .ok candidate_words =>
    match candidate_words.mapM g.dictionary.search with
    | .error e => .error e
    | .ok valid =>
      match valid with
      | [] => .error .emptyUnpack
      | _ =>
        .ok ((candidate_words.zip (valid.map Prod.fst)).filterMap
               (fun p => if p.2 then some p.1 else none),
             (candidates.zip (valid.map Prod.snd)).filterMap
               (fun p => if p.2 then some p.1 else none))

/-- Embedding of `Grid.search`: paths shorter than 2 forward all candidates
unchecked; longer paths go through the trie checks. -/
def Grid.search (g : Grid) (path : List Nat) :
    Except Err (List (List Char) × List (List Nat)) :=
  if path.length < 2 then .ok ([], g.candidates path)
  else g.checkCandidates (g.candidates path)

/-- Embedding of the `while paths:` loop of `Grid.full_search`, with explicit
fuel (the loop in the source has no structural termination measure; the fuel
is consumed one unit per iteration, so `none` means the iteration budget ran
out).  The deque is a FIFO: the head is popped, new paths are appended. -/
def fullSearchLoop (g : Grid) : Nat → List (List Nat) → Finset (List Char) →
    Option (Except Err (Finset (List Char)))
  | 0, _, _ => none
  | _ + 1, [], found_words => some (.ok found_words)
  | fuel + 1, path :: rest, found_words =>
    match g.search path with
    | .error e => some (.error e)
    | .ok (new_words, next_paths) =>
      fullSearchLoop g fuel (rest ++ next_paths) (found_words ∪ new_words.toFinset)

/-- Strict upper bound on every value the adjacency table can contain
(`x * R + y` with `x < R`, `y < C`). -/
def Grid.maxCell (g : Grid) : Nat := (g.R - 1) * g.R + g.C

/-- Iteration budget used to run `full_search`; large enough for the loop to
reach its natural end on every grid built by `Grid.ofRows` (proved below). -/
def Grid.fuelBound (g : Grid) : Nat := 16 ^ (g.maxCell + 2) + 1

/-- Embedding of `Grid.full_search`: run the frontier loop from the
single-cell path `[start]` with the iteration budget `fuelBound`. -/
def Grid.full_search (g : Grid) (start : Nat) :
    Option (Except Err (Finset (List Char))) :=
  fullSearchLoop g g.fuelBound [[start]] ∅

/-- Embedding of the demo driver:
`for i in range(N_CELLS): all_words = all_words.union(grid.full_search(i))` —
the per-cell word sets are unioned; an exception aborts the run. -/
def Grid.searchAll (g : Grid) : Option (Except Err (Finset (List Char))) :=
  (List.range (g.R * g.C)).foldl
    (fun acc i =>
      match acc, g.full_search i with
      | some (.ok s), some (.ok s') => some (.ok (s ∪ s'))
      | some (.ok _), r => r
      | r, _ => r)
    (some (.ok ∅))

/-- Modelled from the spec (§4.2 / §9 open question): the early-pruning
variant of `Grid.search` that also queries the trie for candidate strings when
the current path length is below 2, dropping candidates that are neither words
nor extendable prefixes, and forwarding the rest; paths of length at least 2
are treated exactly as the implemented `Grid.search` does. -/
def Grid.searchVariant (g : Grid) (path : List Nat) :
    Except Err (List (List Char) × List (List Nat)) :=
  if path.length < 2 then
    match (g.candidates path).mapM (wordOfE g) with
    | .error e => .error e
    | .ok candidate_words =>
      match candidate_words.mapM g.dictionary.search with
      | .error e => .error e
      | .ok valid =>
        .ok ([], ((g.candidates path).zip valid).filterMap
          (fun p => if p.2.1 || p.2.2 then some p.1 else none))
  else g.checkCandidates (g.candidates path)

/-- The frontier loop of `full_search` run with the variant expansion. -/
def fullSearchLoopVariant (g : Grid) : Nat → List (List Nat) → Finset (List Char) →
    Option (Except Err (Finset (List Char)))
  | 0, _, _ => none
  | _ + 1, [], found_words => some (.ok found_words)
  | fuel + 1, path :: rest, found_words =>
    match g.searchVariant path with
    | .error e => some (.error e)
    | .ok (new_words, next_paths) =>
      fullSearchLoopVariant g fuel (rest ++ next_paths) (found_words ∪ new_words.toFinset)

/-- The full search from one start cell, with the variant expansion. -/
def Grid.full_searchVariant (g : Grid) (start : Nat) :
    Option (Except Err (Finset (List Char))) :=
  fullSearchLoopVariant g g.fuelBound [[start]] ∅

/-- The all-cells driver, with the variant expansion. -/
def Grid.searchAllVariant (g : Grid) : Option (Except Err (Finset (List Char))) :=
  (List.range (g.R * g.C)).foldl
    (fun acc i =>
      match acc, g.full_searchVariant i with
      | some (.ok s), some (.ok s') => some (.ok (s ∪ s'))
      | some (.ok _), r => r
      | r, _ => r)
    (some (.ok ∅))

/-- Two-letter alphabet used by the concrete examples. -/
def alphaAB : List (Char × Nat) := [('a', 0), ('b', 1)]

/-- A one-row, two-column letter matrix. -/
def rows12 : List (List Char) := [['a', 'b']]

/-- The 1 x 2 grid with an empty dictionary over alphabet `a`, `b`. -/
def grid12 : Grid := Grid.ofRows rows12 (Trie.new alphaAB)

example : grid12.R = 1 ∧ grid12.C = 2 := by decide

example : graphLookup grid12.graph 0 = [1] ∧ graphLookup grid12.graph 1 = [0] := by decide

/-- C10: for every grid, trie, and path of length at least 2 whose last cell
has no adjacent cell outside the path (zero candidate extensions),
`Grid.search` raises the `ValueError` of unpacking the empty `zip(*valid)`
(modelled `Err.emptyUnpack`) instead of returning empty outputs, and the
frontier loop of `full_search` propagates that error as soon as such a
trapped path reaches the head of the frontier. -/
theorem C10_search_trapped_path_raises (g : Grid) (path : List Nat)
    (h2 : 2 ≤ path.length)
    (hno : (graphLookup g.graph ((path.getLast?).getD 0)).filter
        (fun l => !path.contains l) = []) :
    g.search path = .error .emptyUnpack ∧
    ∀ fuel rest found,
      fullSearchLoop g (fuel + 1) (path :: rest) found = some (.error .emptyUnpack) := by
  have hcand : g.candidates path = [] := by
    unfold Grid.candidates
    rw [hno]
    rfl
  have hsearch : g.search path = .error .emptyUnpack := by
    simp only [Grid.search, hcand]
    rw [if_neg (by omega)]
    rfl
  refine ⟨hsearch, ?_⟩
  intro fuel rest found
  unfold fullSearchLoop
  rw [hsearch]

/-- Witness for C10: on the 1 x 2 grid, the path `[0, 1]` covering both cells
is trapped, `search` raises, and `full_search 0` propagates the error. -/
theorem C10_search_trapped_path_raises_witness :
    grid12.search [0, 1] = .error .emptyUnpack ∧
    grid12.full_search 0 = some (.error .emptyUnpack) :=
  ⟨(C10_search_trapped_path_raises grid12 [0, 1] (by decide) (by decide)).1,
   by rfl⟩

/-- C2: the claim states that construction assigns cell `(row, column)` the
flattened index `row * C + column`; the code instead computes
`i = r * self.R + c` with the row count as stride.  On a 2 x 3 grid the cells
`(0, 2)` and `(1, 0)` collide at flattened index 2 (so the mapping is not a
bijection onto `0..5`), whereas the claimed column-stride formula gives the
distinct indices 2 and 3. -/
theorem C2_flatIdx_row_stride_collision :
    flatIdx 2 0 2 = 2 ∧ flatIdx 2 1 0 = 2 ∧ 0 * 3 + 2 = 2 ∧ 1 * 3 + 0 = 3 := by
  decide

/-- Inversion of a successful `mapM` over `Except` on the empty list. -/
theorem mapM_ok_nil {α β : Type} (f : α → Except Err β) (r : List β)
    (h : List.mapM f [] = .ok r) : r = [] := by
  rw [List.mapM_nil] at h
  exact (Except.ok.inj h).symm

/-- Inversion of a successful `mapM` over `Except` on a cons cell. -/
theorem mapM_ok_cons {α β : Type} (f : α → Except Err β) (a : α) (l : List α)
    (r : List β) (h : List.mapM f (a :: l) = .ok r) :
    ∃ v vs, f a = .ok v ∧ List.mapM f l = .ok vs ∧ r = v :: vs := by
  rw [List.mapM_cons] at h
  cases hfa : f a with
  | error e => rw [hfa] at h; simp [Bind.bind, Except.bind] at h
  | ok x =>
    rw [hfa] at h
    cases hl : List.mapM f l with
    | error e => rw [hl] at h; simp [Bind.bind, Except.bind] at h
    | ok xs =>
      rw [hl] at h
      simp only [Bind.bind, Except.bind, Pure.pure, Except.pure, Except.ok.injEq] at h
      exact ⟨x, xs, rfl, rfl, h.symm⟩

/-- A successful `mapM` over `Except` preserves the list length. -/
theorem mapM_ok_length {α β : Type} (f : α → Except Err β) :
    ∀ (l : List α) (r : List β), List.mapM f l = .ok r → r.length = l.length := by
  intro l
  induction l with
  | nil =>
    intro r h
    rw [mapM_ok_nil f r h]
    rfl
  | cons a l ih =>
    intro r h
    obtain ⟨v, vs, _, hl, rfl⟩ := mapM_ok_cons f a l r h
    simp [ih vs hl]

/-- The `isWord` component that `Trie.search` reports for a string
(`false` when the lookup raises). -/
def Grid.isWordAt (g : Grid) (w : List Char) : Bool :=
  match g.dictionary.search w with
  | .ok p => p.1
  | .error _ => false

/-- The `isExtendable` component that `Trie.search` reports for the letter
string of a candidate path (`false` when the lookup raises). -/
def Grid.isExtendableAt (g : Grid) (cand : List Nat) : Bool :=
  match (wordOfE g cand).bind g.dictionary.search with
  | .ok p => p.2
  | .error _ => false

/-- The first output of `Grid.search` — the zip of candidate words with the
first components of the trie results, filtered — is the list of candidate
words whose lookup reports `isWord`. -/
theorem zip_fst_filter (g : Grid) :
    ∀ (ws : List (List Char)) (vs : List (Bool × Bool)),
      List.mapM g.dictionary.search ws = .ok vs →
      (ws.zip (vs.map Prod.fst)).filterMap (fun p => if p.2 then some p.1 else none) =
        ws.filter g.isWordAt := by
  intro ws
  induction ws with
  | nil =>
    intro vs h
    rw [mapM_ok_nil _ vs h]
    rfl
  | cons w ws ih =>
    intro vs h
    obtain ⟨v, vs', hw, hrest, rfl⟩ := mapM_ok_cons _ _ _ _ h
    have hIsW : g.isWordAt w = v.1 := by
      unfold Grid.isWordAt
      rw [hw]
    cases hv1 : v.1 <;>
      simp [List.zip_cons_cons, List.filterMap_cons, List.filter_cons, hIsW, hv1,
        ih vs' hrest]

/-- The second output of `Grid.search` — the zip of candidates with the
second components of the trie results, filtered — is the list of candidates
whose letter string's lookup reports `isExtendable`. -/
theorem zip_snd_filter (g : Grid) :
    ∀ (cands : List (List Nat)) (cws : List (List Char)) (vs : List (Bool × Bool)),
      List.mapM (wordOfE g) cands = .ok cws →
      List.mapM g.dictionary.search cws = .ok vs →
      (cands.zip (vs.map Prod.snd)).filterMap (fun p => if p.2 then some p.1 else none) =
        cands.filter g.isExtendableAt := by
  intro cands
  induction cands with
  | nil =>
    intro cws vs h1 h2
    rw [mapM_ok_nil _ cws h1] at h2
    rw [mapM_ok_nil _ vs h2]
    rfl
  | cons cand cands ih =>
    intro cws vs h1 h2
    obtain ⟨w, cws', hw, h1', rfl⟩ := mapM_ok_cons _ _ _ _ h1
    obtain ⟨v, vs', hv, h2', rfl⟩ := mapM_ok_cons _ _ _ _ h2
    have hExt : g.isExtendableAt cand = v.2 := by
      unfold Grid.isExtendableAt
      rw [hw]
      simp only [Except.bind]
      rw [hv]
    cases hv2 : v.2 <;>
      simp [List.zip_cons_cons, List.filterMap_cons, List.filter_cons, hExt, hv2,
        ih cws' vs' h1' h2']

/-- Closed form of a successful `Grid.search` on a path of length at least 2:
found words are the candidate strings whose lookup has `isWord` set, and
forwarded paths are the candidates whose string's lookup has `isExtendable`
set. -/
theorem search_formula (g : Grid) (path : List Nat)
    (cws : List (List Char)) (valid : List (Bool × Bool))
    (h2 : 2 ≤ path.length)
    (hne : g.candidates path ≠ [])
    (hw : List.mapM (wordOfE g) (g.candidates path) = .ok cws)
    (hv : List.mapM g.dictionary.search cws = .ok valid) :
    g.search path =
      .ok (cws.filter g.isWordAt, (g.candidates path).filter g.isExtendableAt) := by
  have hlen : valid.length = (g.candidates path).length := by
    rw [mapM_ok_length _ _ _ hv, mapM_ok_length _ _ _ hw]
  unfold Grid.search
  rw [if_neg (by omega)]
  unfold Grid.checkCandidates
  rw [hw]
  dsimp only
  rw [hv]
  dsimp only
  cases valid with
  | nil =>
    exfalso
    apply hne
    exact List.length_eq_zero.mp hlen.symm
  | cons v vs =>
    dsimp only
    rw [zip_fst_filter g _ _ hv, zip_snd_filter g _ _ _ hw hv]

/-- Setting a list slot to the value it already holds is a no-op. -/
theorem list_set_get_self {α : Type} (l : List α) (i : Nat) (h : i < l.length) :
    l.set i (l.get ⟨i, h⟩) = l := by
  apply List.ext_getElem
  · simp
  · intro n h1 h2
    rw [List.getElem_set]
    split
    · subst ‹i = n›
      rfl
    · rfl

mutual

/-- Well-formedness of a trie node: every reachable node carries exactly one
child slot per alphabet letter (the invariant `TrieNode.__init__` establishes
with `[None] * n_alpha`). -/
def TrieNode.wfB (n : Nat) : TrieNode → Bool
  | .mk cs _ => cs.length == n && TrieNode.wfListB n cs

/-- Well-formedness of a list of child slots. -/
def TrieNode.wfListB (n : Nat) : List (Option TrieNode) → Bool
  | [] => true
  | none :: rest => TrieNode.wfListB n rest
  | some u :: rest => TrieNode.wfB n u && TrieNode.wfListB n rest

end

/-- Well-formedness of an alphabet dictionary: it maps characters into dense
slots `0 .. n_alpha - 1`, as the demo driver's
`{l: i for i, l in enumerate(alpha)}` does. -/
def alphaWF (alpha : List (Char × Nat)) : Bool :=
  alpha.all (fun p => p.2 < alpha.length)

/-- A member of a well-formed child-slot list is itself well-formed. -/
theorem wfListB_mem (n : Nat) :
    ∀ (cs : List (Option TrieNode)), TrieNode.wfListB n cs = true →
      ∀ u : TrieNode, some u ∈ cs → TrieNode.wfB n u = true := by
  intro cs
  induction cs with
  | nil =>
    intro _ u hu
    cases hu
  | cons c rest ih =>
    intro h u hu
    cases hu with
    | head =>
      rw [TrieNode.wfListB] at h
      exact (Bool.and_eq_true_iff.mp h).1
    | tail _ hm =>
      cases c with
      | none =>
        rw [TrieNode.wfListB] at h
        exact ih h u hm
      | some v =>
        rw [TrieNode.wfListB] at h
        exact ih (Bool.and_eq_true_iff.mp h).2 u hm

/-- Updating a slot of a well-formed child-slot list with a well-formed node
keeps the list well-formed. -/
theorem wfListB_set (n : Nat) :
    ∀ (cs : List (Option TrieNode)) (i : Nat) (u : TrieNode),
      TrieNode.wfListB n cs = true → TrieNode.wfB n u = true →
      TrieNode.wfListB n (cs.set i (some u)) = true := by
  intro cs
  induction cs with
  | nil =>
    intro i u h _
    cases i <;> exact h
  | cons c rest ih =>
    intro i u h hu
    cases i with
    | zero =>
      rw [List.set_cons_zero, TrieNode.wfListB, hu]
      cases c with
      | none => rw [TrieNode.wfListB] at h; simp [h]
      | some v => rw [TrieNode.wfListB] at h; simp [(Bool.and_eq_true_iff.mp h).2]
    | succ j =>
      rw [List.set_cons_succ]
      cases c with
      | none =>
        rw [TrieNode.wfListB] at h ⊢
        exact ih j u h hu
      | some v =>
        rw [TrieNode.wfListB] at h ⊢
        rw [Bool.and_eq_true_iff] at h
        simp [h.1, ih j u h.2 hu]

/-- The fresh node made by `TrieNode.__init__` is well-formed. -/
theorem wfB_new (n : Nat) : TrieNode.wfB n (TrieNode.new n) = true := by
  have hrep : ∀ m, TrieNode.wfListB n (List.replicate m none) = true := by
    intro m
    induction m with
    | zero => rfl
    | succ k ih => rw [List.replicate_succ, TrieNode.wfListB]; exact ih
  rw [TrieNode.new, TrieNode.wfB]
  simp [hrep n]

/-- Walking a word that `searchFrom` reports as present re-traverses existing
nodes only, so re-inserting it rebuilds the identical tree. -/
theorem insertFrom_of_searchFrom (n : Nat) (alpha : List (Char × Nat)) :
    ∀ (w : List Char) (node : TrieNode) (b : Bool),
      searchFrom alpha w node = .ok (true, b) → insertFrom n alpha w node = .ok node := by
  intro w
  induction w with
  | nil =>
    intro node b h
    cases node with
    | mk cs iw =>
      rw [searchFrom] at h
      rw [insertFrom]
      have : iw = true := (Prod.mk.injEq _ _ _ _ ▸ (Except.ok.inj h)).1
      rw [this]
  | cons ch rest ih =>
    intro node b h
    cases node with
    | mk cs iw =>
      simp only [searchFrom] at h
      simp only [insertFrom]
      split at h
      · exact absurd h (by simp)
      case h_2 i halpha =>
        split at h
        case isTrue hi =>
          split at h
          case h_1 hg => exact absurd h (by simp)
          case h_2 child hg =>
            have hins := ih child b h
            simp only [hg, hins]
            have hset : cs.set i (some child) = cs := by
              conv_lhs => rw [← hg]
              exact list_set_get_self cs i hi
            rw [hset, dif_pos hi]
        case isFalse hi => exact absurd h (by simp)

/-- C6: re-inserting a word already present in the trie (one whose lookup
succeeds with `isWord` set) is a safe no-op: the resulting trie state — node
structure, populated child slots, and all `isWord` flags — is identical to
the state before the call. -/
theorem C6_insert_idempotent (t : Trie) (w : List Char) (b : Bool)
    (h : t.search w = .ok (true, b)) : t.insert w = .ok t := by
  unfold Trie.search at h
  split at h
  case isTrue =>
    unfold Trie.insert
    rw [insertFrom_of_searchFrom t.n_alpha t.alphabet w t.root b h]
  case isFalse => exact absurd h (by simp)

/-- If `insertFrom` raises the alphabet-mismatch error, some character of the
word has no index mapping. -/
theorem insertFrom_alpha_error (n : Nat) (alpha : List (Char × Nat)) :
    ∀ (w : List Char) (node : TrieNode),
      insertFrom n alpha w node = .error .alphabetMismatch →
      ∃ c ∈ w, alphaGet alpha c = none := by
  intro w
  induction w with
  | nil =>
    intro node h
    cases node with
    | mk cs iw => simp [insertFrom] at h
  | cons ch rest ih =>
    intro node h
    cases node with
    | mk cs iw =>
      simp only [insertFrom] at h
      split at h
      case h_1 halpha => exact ⟨ch, List.mem_cons_self ch rest, halpha⟩
      case h_2 i halpha =>
        split at h
        case isTrue hi =>
          split at h
          case h_1 e herr =>
            have he : e = Err.alphabetMismatch := Except.error.inj h
            obtain ⟨c, hc, hnone⟩ := ih _ (he ▸ herr)
            exact ⟨c, List.mem_cons_of_mem ch hc, hnone⟩
          case h_2 => exact absurd h (by simp)
        case isFalse hi => exact absurd h (by simp)

/-- In a well-formed trie over a well-formed alphabet, inserting a word with
an unmapped character raises the alphabet-mismatch error. -/
theorem insertFrom_alpha_error_of_unmapped (alpha : List (Char × Nat))
    (hA : alphaWF alpha = true) :
    ∀ (w : List Char) (node : TrieNode),
      TrieNode.wfB alpha.length node = true →
      (∃ c ∈ w, alphaGet alpha c = none) →
      insertFrom alpha.length alpha w node = .error .alphabetMismatch := by
  intro w
  induction w with
  | nil =>
    intro node _ hex
    obtain ⟨c, hc, _⟩ := hex
    cases hc
  | cons ch rest ih =>
    intro node hwf hex
    cases node with
    | mk cs iw =>
      simp only [insertFrom]
      cases halpha : alphaGet alpha ch with
      | none => rfl
      | some i =>
        obtain ⟨c, hc, hnone⟩ := hex
        have hcrest : c ∈ rest := by
          cases hc with
          | head => rw [hnone] at halpha; cases halpha
          | tail _ hm => exact hm
        rw [TrieNode.wfB, Bool.and_eq_true_iff] at hwf
        have hcl : cs.length = alpha.length := eq_of_beq hwf.1
        have hi : i < cs.length := by
          rw [hcl]
          unfold alphaGet at halpha
          cases hf : alpha.find? (fun p => p.1 == ch) with
          | none => rw [hf] at halpha; cases halpha
          | some p =>
            rw [hf] at halpha
            have hp : p.2 = i := Option.some.inj halpha
            have hmem := List.mem_of_find?_eq_some hf
            have := List.all_eq_true.mp hA p hmem
            simpa [hp] using this
        dsimp only
        rw [dif_pos hi]
        cases hg : cs.get ⟨i, hi⟩ with
        | none =>
          have hchild := wfB_new alpha.length
          dsimp only
          rw [ih (TrieNode.new alpha.length) hchild ⟨c, hcrest, hnone⟩]
        | some u =>
          have hu : TrieNode.wfB alpha.length u = true := by
            apply wfListB_mem alpha.length cs hwf.2 u
            rw [← hg]
            exact List.get_mem cs i hi
          dsimp only
          rw [ih u hu ⟨c, hcrest, hnone⟩]

/-- The trie walk of `Trie.search` never raises the alphabet-mismatch error
itself (only the subset pre-check does). -/
theorem searchFrom_ne_alpha_error (alpha : List (Char × Nat)) :
    ∀ (w : List Char) (node : TrieNode),
      searchFrom alpha w node ≠ .error .alphabetMismatch := by
  intro w
  induction w with
  | nil =>
    intro node h
    cases node with
    | mk cs iw => simp [searchFrom] at h
  | cons ch rest ih =>
    intro node h
    cases node with
    | mk cs iw =>
      simp only [searchFrom] at h
      split at h
      · simp at h
      · split at h
        · split at h
          · simp at h
          · exact ih _ h
        · simp at h

/-- C7: over a well-formed alphabet (dense index mapping, as built by the
demo driver) and a well-formed trie, `Trie.insert` and `Trie.search` raise
the alphabet-mismatch `ValueError` if and only if the string contains at
least one character with no index mapping in the fixed alphabet. -/
theorem C7_alphabet_mismatch_iff (t : Trie) (s : List Char)
    (hA : alphaWF t.alphabet = true)
    (hT : TrieNode.wfB t.n_alpha t.root = true) :
    (t.insert s = .error .alphabetMismatch ↔ ∃ c ∈ s, alphaGet t.alphabet c = none) ∧
    (t.search s = .error .alphabetMismatch ↔ ∃ c ∈ s, alphaGet t.alphabet c = none) := by
  constructor
  · constructor
    · intro h
      unfold Trie.insert at h
      split at h
      case h_1 e herr =>
        have he : e = Err.alphabetMismatch := Except.error.inj h
        exact insertFrom_alpha_error t.n_alpha t.alphabet s t.root (he ▸ herr)
      case h_2 => exact absurd h (by simp)
    · intro hex
      unfold Trie.insert Trie.n_alpha
      rw [insertFrom_alpha_error_of_unmapped t.alphabet hA s t.root hT hex]
  · constructor
    · intro h
      unfold Trie.search at h
      split at h
      case isTrue => exact absurd h (searchFrom_ne_alpha_error t.alphabet s t.root)
      case isFalse hall =>
        rw [Bool.not_eq_true, List.all_eq_false] at hall
        obtain ⟨c, hc, hns⟩ := hall
        exact ⟨c, hc, Option.not_isSome_iff_eq_none.mp hns⟩
    · intro hex
      unfold Trie.search
      rw [if_neg]
      intro hall
      obtain ⟨c, hc, hnone⟩ := hex
      have := List.all_eq_true.mp hall c hc
      rw [hnone] at this
      cases this

/-- Alphabet of the 2 x 2 demo grid `c a / t s`. -/
def alphaCats : List (Char × Nat) := [('c', 0), ('a', 1), ('t', 2), ('s', 3)]

/-- A 2 x 2 letter matrix spelling `c a / t s`. -/
def rowsCats : List (List Char) := [['c', 'a'], ['t', 's']]

/-- The trie over `alphaCats` holding exactly the word `cat`. -/
def trieCat : Trie :=
  match (Trie.new alphaCats).insert ['c', 'a', 't'] with
  | .ok t => t
  | .error _ => Trie.new alphaCats

/-- The 2 x 2 grid `c a / t s` with dictionary `cat`. -/
def gridCats : Grid := Grid.ofRows rowsCats trieCat

/-- Witness for C6: the word `cat` is present in `trieCat`, and re-inserting
it returns the identical trie. -/
theorem C6_insert_idempotent_witness :
    trieCat.search ['c', 'a', 't'] = .ok (true, false) ∧
    trieCat.insert ['c', 'a', 't'] = .ok trieCat :=
  ⟨rfl, C6_insert_idempotent trieCat ['c', 'a', 't'] false rfl⟩

/-- Witness for C7 on the concrete trie `trieCat` and the string `cx`
(whose second character is unmapped). -/
theorem C7_alphabet_mismatch_iff_witness :
    (trieCat.insert ['c', 'x'] = .error .alphabetMismatch ↔
      ∃ c ∈ ['c', 'x'], alphaGet trieCat.alphabet c = none) ∧
    (trieCat.search ['c', 'x'] = .error .alphabetMismatch ↔
      ∃ c ∈ ['c', 'x'], alphaGet trieCat.alphabet c = none) :=
  C7_alphabet_mismatch_iff trieCat ['c', 'x'] (by decide) (by decide)

/-- C1 counterexample: on the 2 x 2 grid `c a / t s` with dictionary `cat`,
expanding the path `[0, 1]` (string `ca`) finds the candidate `[0, 1, 2]`
whose string `cat` satisfies `isWord`, yet the next-frontier output is empty:
the code forwards only `isExtendable` candidates, not `isWord`-or-
`isExtendable` ones as the claim states. -/
theorem C1_counterexample_word_not_forwarded :
    trieCat.search ['c', 'a', 't'] = .ok (true, false) ∧
    gridCats.candidates [0, 1] = [[0, 1, 2], [0, 1, 3]] ∧
    gridCats.search [0, 1] = .ok ([['c', 'a', 't']], []) :=
  ⟨rfl, rfl, rfl⟩

/-- C1 (amended): for every grid, trie, and path of length at least 2, when
the expansion completes without an exception (at least one candidate exists,
every candidate's letters are in range, and every trie lookup stays inside
the alphabet), `Grid.search` emits as found words exactly the candidate
strings whose `Trie.search` result has `isWord` set, and returns as
next-frontier paths exactly the candidates whose string's result has
`isExtendable` set — not `isWord` or `isExtendable` as the claim states: a
found word that is not also a strict prefix of a longer word is dropped from
the frontier.  All other candidates appear in neither output. -/
theorem C1_search_found_and_frontier (g : Grid) (path : List Nat)
    (cws : List (List Char)) (valid : List (Bool × Bool))
    (h2 : 2 ≤ path.length)
    (hne : g.candidates path ≠ [])
    (hw : List.mapM (wordOfE g) (g.candidates path) = .ok cws)
    (hv : List.mapM g.dictionary.search cws = .ok valid) :
    g.search path =
      .ok (cws.filter g.isWordAt, (g.candidates path).filter g.isExtendableAt) :=
  search_formula g path cws valid h2 hne hw hv

/-- Witness for C1 (amended) at the path `[0, 1]` of the `cats` grid. -/
theorem C1_search_found_and_frontier_witness :
    gridCats.search [0, 1] =
      .ok ([['c', 'a', 't'], ['c', 'a', 's']].filter gridCats.isWordAt,
        (gridCats.candidates [0, 1]).filter gridCats.isExtendableAt) :=
  C1_search_found_and_frontier gridCats [0, 1]
    [['c', 'a', 't'], ['c', 'a', 's']] [(true, false), (false, false)]
    (by decide) (by decide) (by rfl) (by rfl)

/-- The nested comprehension over an empty outer range is empty. -/
theorem product_nil {α β : Type} (ys : List β) :
    List.product ([] : List α) ys = [] := rfl

theorem product_cons {α β : Type} (x : α) (xs : List α) (ys : List β) :
    List.product (x :: xs) ys = (ys.map (fun b => (x, b))) ++ List.product xs ys := rfl

theorem product_filter {α β : Type} (xs : List α) (ys : List β)
    (px : α → Bool) (py : β → Bool) :
    (List.product xs ys).filter (fun p => px p.1 && py p.2) =
      List.product (xs.filter px) (ys.filter py) := by
  induction xs with
  | nil => simp [product_nil]
  | cons x xs ih =>
    rw [product_cons, List.filter_append, ih, List.filter_map]
    cases hx : px x with
    | true =>
      have : List.filter ((fun p => px p.1 && py p.2) ∘ (fun b => (x, b))) ys =
          List.filter py ys := by
        apply List.filter_congr
        intro b _
        simp [Function.comp, hx]
      rw [this, List.filter_cons, hx]
      simp [product_cons]
    | false =>
      have : List.filter ((fun p => px p.1 && py p.2) ∘ (fun b => (x, b))) ys = [] := by
        have : ∀ b ∈ ys, ((fun p => px p.1 && py p.2) ∘ (fun b => (x, b))) b = false := by
          intro b _
          simp [Function.comp, hx]
        rw [List.filter_congr this, List.filter_false]
      rw [this, List.filter_cons, hx]
      simp

theorem offs_nodup (v : Nat) : (offs v).Nodup := by
  simp [offs]
  omega

theorem offs_filter_mid (v n : Nat) (h1 : 1 ≤ v) (h2 : v + 1 < n) :
    (offs v).filter (inb n) = [(v : Int) - 1, (v : Int), (v : Int) + 1] := by
  have e1 : inb n ((v : Int) - 1) = true := by simp [inb]; omega
  have e2 : inb n ((v : Int)) = true := by simp [inb]; omega
  have e3 : inb n ((v : Int) + 1) = true := by simp [inb]; omega
  simp [offs, List.filter, e1, e2, e3]

theorem offs_filter_low (n : Nat) (h : 2 ≤ n) :
    (offs 0).filter (inb n) = [(0 : Int), (1 : Int)] := by
  have hoffs : offs 0 = [(-1 : Int), 0, 1] := by simp [offs]
  have e1 : inb n (-1) = false := by simp [inb]
  have e2 : inb n 0 = true := by simp [inb]; omega
  have e3 : inb n 1 = true := by simp [inb]; omega
  rw [hoffs]
  simp [List.filter, e1, e2, e3]

theorem offs_filter_high (v n : Nat) (h1 : 1 ≤ v) (h2 : v + 1 = n) :
    (offs v).filter (inb n) = [(v : Int) - 1, (v : Int)] := by
  have e1 : inb n ((v : Int) - 1) = true := by simp [inb]; omega
  have e2 : inb n ((v : Int)) = true := by simp [inb]; omega
  have e3 : inb n ((v : Int) + 1) = false := by simp [inb]; omega
  simp [List.filter, offs, e1, e2, e3]

theorem product_length {α β : Type} (xs : List α) (ys : List β) :
    (List.product xs ys).length = xs.length * ys.length := by
  induction xs with
  | nil => rw [product_nil]; simp
  | cons x xs ih =>
    rw [product_cons, List.length_append, List.length_map, ih, List.length_cons]
    ring

theorem product_nodup {α β : Type} {xs : List α} {ys : List β}
    (hx : xs.Nodup) (hy : ys.Nodup) : (List.product xs ys).Nodup :=
  List.Nodup.product hx hy

theorem pair_mem_product {α β : Type} {xs : List α} {ys : List β} {a : α} {b : β} :
    (a, b) ∈ List.product xs ys ↔ a ∈ xs ∧ b ∈ ys :=
  List.pair_mem_product

theorem flatIdx_inj (N r c x y : Nat) (hc : c < N) (hy : y < N)
    (h : r * N + c = x * N + y) : r = x ∧ c = y := by
  have hrx : r = x := by
    rcases Nat.lt_trichotomy r x with hlt | heq | hgt
    · exfalso
      have h1 : (r + 1) * N ≤ x * N := Nat.mul_le_mul_right N hlt
      have h2 : r * N + c < r * N + N := Nat.add_lt_add_left hc _
      have h3 : r * N + N = (r + 1) * N := by ring
      have hfin : r * N + c < x * N + y := by
        calc r * N + c < (r + 1) * N := h3 ▸ h2
        _ ≤ x * N := h1
        _ ≤ x * N + y := Nat.le_add_right _ _
      exact absurd h (Nat.ne_of_lt hfin)
    · exact heq
    · exfalso
      have h1 : (x + 1) * N ≤ r * N := Nat.mul_le_mul_right N hgt
      have h2 : x * N + y < x * N + N := Nat.add_lt_add_left hy _
      have h3 : x * N + N = (x + 1) * N := by ring
      have hfin : x * N + y < r * N + c := by
        calc x * N + y < (x + 1) * N := h3 ▸ h2
        _ ≤ r * N := h1
        _ ≤ r * N + c := Nat.le_add_right _ _
      exact absurd h.symm (Nat.ne_of_lt hfin)
  subst hrx
  exact ⟨rfl, Nat.add_left_cancel h⟩

theorem mem_offs_filter_bounds {v n : Nat} {x : Int}
    (hx : x ∈ (offs v).filter (inb n)) : 0 ≤ x ∧ x < (n : Int) := by
  have := (List.mem_filter.mp hx).2
  unfold inb at this
  rw [Bool.and_eq_true_iff] at this
  exact ⟨of_decide_eq_true this.1, of_decide_eq_true this.2⟩

theorem graphEntry_length_square (N r c : Nat) (hr : r < N) (hc : c < N) :
    (graphEntry N N r c).length =
      ((offs r).filter (inb N)).length * ((offs c).filter (inb N)).length - 1 := by
  have hfx : ((r : Int)) ∈ (offs r).filter (inb N) := by
    rw [List.mem_filter]
    constructor
    · simp [offs]
    · simp [inb]
      omega
  have hfy : ((c : Int)) ∈ (offs c).filter (inb N) := by
    rw [List.mem_filter]
    constructor
    · simp [offs]
    · simp [inb]
      omega
  have hPn : (List.product ((offs r).filter (inb N)) ((offs c).filter (inb N))).Nodup :=
    product_nodup (List.Nodup.filter _ (offs_nodup r)) (List.Nodup.filter _ (offs_nodup c))
  have hmapn :
      ((List.product ((offs r).filter (inb N)) ((offs c).filter (inb N))).map
        (fun p => p.1.toNat * N + p.2.toNat)).Nodup := by
    apply List.Nodup.map_on _ hPn
    intro p hp q hq hpq
    obtain ⟨p1, p2⟩ := p
    obtain ⟨q1, q2⟩ := q
    obtain ⟨hp1, hp2⟩ := pair_mem_product.mp hp
    obtain ⟨hq1, hq2⟩ := pair_mem_product.mp hq
    have bp1 := mem_offs_filter_bounds hp1
    have bp2 := mem_offs_filter_bounds hp2
    have bq1 := mem_offs_filter_bounds hq1
    have bq2 := mem_offs_filter_bounds hq2
    dsimp only at hpq
    have hlt1 : p2.toNat < N := by omega
    have hlt2 : q2.toNat < N := by omega
    obtain ⟨e1, e2⟩ := flatIdx_inj N p1.toNat p2.toNat q1.toNat q2.toNat hlt1 hlt2 hpq
    have h1 : p1 = q1 := by omega
    have h2 : p2 = q2 := by omega
    rw [h1, h2]
  have hcmem : flatIdx N r c ∈
      ((List.product ((offs r).filter (inb N)) ((offs c).filter (inb N))).map
        (fun p => p.1.toNat * N + p.2.toNat)) := by
    rw [List.mem_map]
    refine ⟨((r : Int), (c : Int)), pair_mem_product.mpr ⟨hfx, hfy⟩, ?_⟩
    simp [flatIdx]
  unfold graphEntry neighbors
  rw [product_filter]
  rw [← List.Nodup.erase_eq_filter hmapn (flatIdx N r c)]
  rw [List.length_erase_of_mem hcmem, List.length_map, product_length]

theorem offs_filter_length_boundary (v N : Nat) (hN : 2 ≤ N) (hv : v < N)
    (hb : v = 0 ∨ v + 1 = N) : ((offs v).filter (inb N)).length = 2 := by
  rcases hb with rfl | hb
  · rw [offs_filter_low N hN]
    rfl
  · have h1 : 1 ≤ v := by omega
    rw [offs_filter_high v N h1 hb]
    rfl

theorem offs_filter_length_mid (v N : Nat) (h1 : 1 ≤ v) (h2 : v + 1 < N) :
    ((offs v).filter (inb N)).length = 3 := by
  rw [offs_filter_mid v N h1 h2]
  rfl

theorem graphLookup_of_unique (i : Nat) (v : List Nat) :
    ∀ (l : List (Nat × List Nat)),
      (∀ p ∈ l, p.1 = i → p.2 = v) → (∃ p ∈ l, p.1 = i) →
      graphLookup l i = v := by
  intro l
  induction l with
  | nil =>
    intro _ hex
    obtain ⟨p, hp, _⟩ := hex
    cases hp
  | cons q l ih =>
    intro huniq hex
    unfold graphLookup
    cases hq : (q.1 == i) with
    | true =>
      rw [List.find?_cons_of_pos l hq]
      exact huniq q (List.mem_cons_self q l) (eq_of_beq hq)
    | false =>
      rw [List.find?_cons_of_neg l (by simp [hq])]
      have hex' : ∃ p ∈ l, p.1 = i := by
        obtain ⟨p, hp, hpi⟩ := hex
        cases hp with
        | head =>
          exfalso
          rw [hpi] at hq
          simp at hq
        | tail _ hm => exact ⟨p, hm, hpi⟩
      have := ih (fun p hp hpi => huniq p (List.mem_cons_of_mem q hp) hpi) hex'
      unfold graphLookup at this
      exact this

theorem buildGraph_eq_reverse (R C : Nat) :
    ∀ (cells : List (Nat × Nat × Char)) (acc : List (Nat × List Nat)),
      cells.foldl (fun g p => (flatIdx R p.1 p.2.1, graphEntry R C p.1 p.2.1) :: g) acc =
        (cells.map (fun p => (flatIdx R p.1 p.2.1, graphEntry R C p.1 p.2.1))).reverse ++ acc := by
  intro cells
  induction cells with
  | nil => intro acc; rfl
  | cons q cells ih =>
    intro acc
    rw [List.foldl_cons, ih, List.map_cons, List.reverse_cons, List.append_assoc]
    rfl

theorem mem_gridCells (rows : List (List Char)) (r c : Nat) (row : List Char) (ch : Char)
    (hr : rows[r]? = some row) (hc : row[c]? = some ch) :
    (r, c, ch) ∈ gridCells rows := by
  unfold gridCells
  rw [List.mem_flatMap]
  refine ⟨(r, row), List.mem_enum_iff_getElem?.mpr hr, ?_⟩
  rw [List.mem_map]
  exact ⟨(c, ch), List.mem_enum_iff_getElem?.mpr hc, rfl⟩

theorem gridCells_bounds (rows : List (List Char)) (C : Nat)
    (hC : ∀ row ∈ rows, row.length = C) :
    ∀ p ∈ gridCells rows, p.1 < rows.length ∧ p.2.1 < C := by
  intro p hp
  unfold gridCells at hp
  rw [List.mem_flatMap] at hp
  obtain ⟨rr, hrr, hp2⟩ := hp
  rw [List.mem_map] at hp2
  obtain ⟨cc, hcc, rfl⟩ := hp2
  have h1 := List.mem_enum_iff_getElem?.mp hrr
  have h2 := List.mem_enum_iff_getElem?.mp hcc
  constructor
  · exact (List.getElem?_eq_some.mp h1).1
  · have hrow : rr.2 ∈ rows := List.getElem?_mem h1
    have := (List.getElem?_eq_some.mp h2).1
    rw [hC rr.2 hrow] at this
    exact this

theorem gridCells_exists (rows : List (List Char)) (C : Nat)
    (hC : ∀ row ∈ rows, row.length = C)
    (r c : Nat) (hr : r < rows.length) (hc : c < C) :
    ∃ ch, (r, c, ch) ∈ gridCells rows := by
  have hrow : rows[r]? = some rows[r] := List.getElem?_eq_getElem hr
  have hmem : rows[r] ∈ rows := List.getElem_mem hr
  have hlen : rows[r].length = C := hC _ hmem
  have hcc : c < rows[r].length := by omega
  exact ⟨rows[r][c], mem_gridCells rows r c rows[r] rows[r][c] hrow
    (List.getElem?_eq_getElem hcc)⟩

theorem graphLookup_buildGraph_square (rows : List (List Char)) (N : Nat)
    (hlen : rows.length = N) (hC : ∀ row ∈ rows, row.length = N)
    (r c : Nat) (hr : r < N) (hc : c < N) :
    graphLookup (buildGraph N N (gridCells rows)) (flatIdx N r c) =
      graphEntry N N r c := by
  unfold buildGraph
  rw [buildGraph_eq_reverse]
  apply graphLookup_of_unique
  · intro p hp hpi
    rw [List.append_nil, List.mem_reverse, List.mem_map] at hp
    obtain ⟨q, hq, rfl⟩ := hp
    obtain ⟨hq1, hq2⟩ := gridCells_bounds rows N hC q hq
    rw [hlen] at hq1
    obtain ⟨e1, e2⟩ := flatIdx_inj N q.1 q.2.1 r c hq2 hc hpi
    rw [e1, e2]
  · obtain ⟨ch, hmem⟩ := gridCells_exists rows N hC r c (by omega) hc
    refine ⟨(flatIdx N r c, graphEntry N N r c), ?_, rfl⟩
    rw [List.append_nil, List.mem_reverse, List.mem_map]
    exact ⟨(r, c, ch), hmem, rfl⟩

/-- C4 (amended): for every square N x N letter grid with N at least 2, the
adjacency table built at Grid construction gives each interior cell exactly 8
neighbors, each corner cell exactly 3, and each non-corner edge cell exactly
5.  (On non-square grids the row-stride flattening makes distinct cells
collide, and the later cell's assignment overwrites the earlier entry — see
the counterexample; on one-row grids the 8/3/5 classification itself fails.) -/
theorem C4_adjacency_counts_square (rows : List (List Char)) (d : Trie)
    (N r c : Nat) (hN : 2 ≤ N)
    (hlen : rows.length = N) (hC : ∀ row ∈ rows, row.length = N)
    (hr : r < N) (hc : c < N) :
    (1 ≤ r ∧ r + 1 < N ∧ 1 ≤ c ∧ c + 1 < N →
      (graphLookup (Grid.ofRows rows d).graph (flatIdx N r c)).length = 8) ∧
    ((r = 0 ∨ r + 1 = N) ∧ (c = 0 ∨ c + 1 = N) →
      (graphLookup (Grid.ofRows rows d).graph (flatIdx N r c)).length = 3) ∧
    ((((r = 0 ∨ r + 1 = N) ∧ 1 ≤ c ∧ c + 1 < N) ∨
      ((c = 0 ∨ c + 1 = N) ∧ 1 ≤ r ∧ r + 1 < N)) →
      (graphLookup (Grid.ofRows rows d).graph (flatIdx N r c)).length = 5) := by
  have hhead : (rows.headD []).length = N := by
    cases rows with
    | nil => simp at hlen; omega
    | cons row rest => exact hC row (List.mem_cons_self row rest)
  have hgraph : (Grid.ofRows rows d).graph = buildGraph N N (gridCells rows) := by
    unfold Grid.ofRows
    dsimp only
    rw [hlen, hhead]
  rw [hgraph, graphLookup_buildGraph_square rows N hlen hC r c hr hc,
      graphEntry_length_square N r c hr hc]
  refine ⟨?_, ?_, ?_⟩
  · rintro ⟨h1, h2, h3, h4⟩
    rw [offs_filter_length_mid r N h1 h2, offs_filter_length_mid c N h3 h4]
  · rintro ⟨hb1, hb2⟩
    rw [offs_filter_length_boundary r N hN hr hb1,
        offs_filter_length_boundary c N hN hc hb2]
  · rintro (⟨hb, h1, h2⟩ | ⟨hb, h1, h2⟩)
    · rw [offs_filter_length_boundary r N hN hr hb, offs_filter_length_mid c N h1 h2]
    · rw [offs_filter_length_mid r N h1 h2, offs_filter_length_boundary c N hN hc hb]

/-- A 3 x 5 all-`a` letter matrix. -/
def rows35 : List (List Char) :=
  [['a', 'a', 'a', 'a', 'a'], ['a', 'a', 'a', 'a', 'a'], ['a', 'a', 'a', 'a', 'a']]

/-- The 3 x 5 grid over `rows35`. -/
def grid35 : Grid := Grid.ofRows rows35 (Trie.new [('a', 0)])

/-- C4 counterexample: on the rectangular (non-square) 3 x 5 grid, the
interior cell (1, 3) flattens (with the row-count stride) to index 6; the
later-visited corner cell (2, 0) flattens to 6 as well and overwrites the
table entry, leaving the interior cell's entry with 3 neighbors, not 8. -/
theorem C4_counterexample_interior_overwritten :
    grid35.R = 3 ∧ grid35.C = 5 ∧
    flatIdx 3 1 3 = 6 ∧ flatIdx 3 2 0 = 6 ∧
    graphLookup grid35.graph (flatIdx 3 1 3) = [3, 4, 7] ∧
    (graphLookup grid35.graph (flatIdx 3 1 3)).length = 3 := by
  decide

/-- A 3 x 3 all-`a` letter matrix. -/
def rows33 : List (List Char) :=
  [['a', 'a', 'a'], ['a', 'a', 'a'], ['a', 'a', 'a']]

/-- Witness for C4 (amended) on the 3 x 3 grid: the interior cell (1, 1) has
8 table neighbors, the corner (0, 0) has 3, and the edge cell (0, 1) has 5. -/
theorem C4_adjacency_counts_square_witness :
    (graphLookup (Grid.ofRows rows33 (Trie.new [('a', 0)])).graph (flatIdx 3 1 1)).length = 8 ∧
    (graphLookup (Grid.ofRows rows33 (Trie.new [('a', 0)])).graph (flatIdx 3 0 0)).length = 3 ∧
    (graphLookup (Grid.ofRows rows33 (Trie.new [('a', 0)])).graph (flatIdx 3 0 1)).length = 5 :=
  ⟨(C4_adjacency_counts_square rows33 (Trie.new [('a', 0)]) 3 1 1 (by decide) rfl
      (by decide) (by decide) (by decide)).1 (by omega),
   (C4_adjacency_counts_square rows33 (Trie.new [('a', 0)]) 3 0 0 (by decide) rfl
      (by decide) (by decide) (by decide)).2.1 (by omega),
   (C4_adjacency_counts_square rows33 (Trie.new [('a', 0)]) 3 0 1 (by decide) rfl
      (by decide) (by decide) (by decide)).2.2 (by omega)⟩

/-- Every candidate path extends the input path by one unused neighbor of its
last cell. -/
theorem candidates_shape (g : Grid) (path : List Nat) :
    ∀ q ∈ g.candidates path, ∃ l, q = path ++ [l] ∧
      l ∈ graphLookup g.graph ((path.getLast?).getD 0) ∧ l ∉ path := by
  intro q hq
  unfold Grid.candidates at hq
  rw [List.mem_map] at hq
  obtain ⟨l, hl, rfl⟩ := hq
  rw [List.mem_filter] at hl
  refine ⟨l, rfl, hl.1, ?_⟩
  have := hl.2
  simp only [Bool.not_eq_true'] at this
  intro hmem
  rw [List.contains_eq_any_beq] at this
  rw [List.any_eq_false] at this
  exact this l hmem (by simp)

/-- Membership in the filtered zip implies membership in the left factor. -/
theorem mem_zip_filterMap {α : Type} (l : List α) (bs : List Bool) (q : α)
    (hq : q ∈ (l.zip bs).filterMap (fun p => if p.2 then some p.1 else none)) :
    q ∈ l := by
  rw [List.mem_filterMap] at hq
  obtain ⟨p, hp, hpq⟩ := hq
  cases hb : p.2
  · rw [hb] at hpq
    simp at hpq
  · rw [hb] at hpq
    simp only [if_true] at hpq
    obtain rfl := Option.some.inj hpq
    exact (List.of_mem_zip hp).1

/-- Every forwarded path of a successful `Grid.search` is a candidate. -/
theorem search_ok_next_sub (g : Grid) (path : List Nat) (ws : List (List Char))
    (nps : List (List Nat)) (h : g.search path = .ok (ws, nps)) :
    ∀ q ∈ nps, q ∈ g.candidates path := by
  unfold Grid.search at h
  split at h
  case isTrue =>
    have := Except.ok.inj h
    intro q hq
    rw [← (Prod.mk.injEq _ _ _ _ |>.mp this).2] at hq
    exact hq
  case isFalse =>
    unfold Grid.checkCandidates at h
    split at h
    · exact absurd h (by simp)
    case h_2 cws hw =>
      split at h
      · exact absurd h (by simp)
      case h_2 valid hv =>
        split at h
        · exact absurd h (by simp)
        case h_2 =>
          have := Except.ok.inj h
          intro q hq
          rw [← (Prod.mk.injEq _ _ _ _ |>.mp this).2] at hq
          exact mem_zip_filterMap _ _ q hq

/-- Elements of a successful `mapM` result come from applying the function to
an element of the input list. -/
theorem mapM_ok_mem {α β : Type} (f : α → Except Err β) :
    ∀ (l : List α) (r : List β), List.mapM f l = .ok r →
      ∀ b ∈ r, ∃ a ∈ l, f a = .ok b := by
  intro l
  induction l with
  | nil =>
    intro r h b hb
    rw [mapM_ok_nil f r h] at hb
    cases hb
  | cons a l ih =>
    intro r h b hb
    obtain ⟨v, vs, hfa, hl, rfl⟩ := mapM_ok_cons f a l r h
    cases hb with
    | head => exact ⟨a, List.mem_cons_self a l, hfa⟩
    | tail _ hm =>
      obtain ⟨a', ha', hfa'⟩ := ih vs hl b hm
      exact ⟨a', List.mem_cons_of_mem a ha', hfa'⟩

/-- Every emitted word of a successful `Grid.search` is the letter string of
some candidate path, and emission only happens for paths of length at least
2. -/
theorem search_ok_words (g : Grid) (path : List Nat) (ws : List (List Char))
    (nps : List (List Nat)) (h : g.search path = .ok (ws, nps)) :
    ∀ w ∈ ws, 2 ≤ path.length ∧ ∃ q ∈ g.candidates path, wordOfE g q = .ok w := by
  unfold Grid.search at h
  split at h
  case isTrue =>
    have := Except.ok.inj h
    intro w hw
    rw [← (Prod.mk.injEq _ _ _ _ |>.mp this).1] at hw
    cases hw
  case isFalse h2 =>
    unfold Grid.checkCandidates at h
    split at h
    · exact absurd h (by simp)
    case h_2 cws hmw =>
      split at h
      · exact absurd h (by simp)
      case h_2 valid hv =>
        split at h
        · exact absurd h (by simp)
        case h_2 =>
          have heq := Except.ok.inj h
          intro w hw
          rw [← (Prod.mk.injEq _ _ _ _ |>.mp heq).1] at hw
          have hwcws : w ∈ cws := mem_zip_filterMap _ _ w hw
          obtain ⟨q, hq, hqw⟩ := mapM_ok_mem _ _ _ hmw w hwcws
          exact ⟨by omega, q, hq, hqw⟩

/-- Appending a fresh element keeps a list duplicate-free. -/
theorem nodup_append_singleton {α : Type} (p : List α) (l : α)
    (h : p.Nodup) (hl : l ∉ p) : (p ++ [l]).Nodup := by
  rw [List.nodup_append]
  refine ⟨h, List.nodup_singleton l, ?_⟩
  intro x hx hx'
  rw [List.mem_singleton] at hx'
  subst hx'
  exact hl hx

/-- Loop invariant behind C5: with a duplicate-free frontier, every word the
loop ever returns has length at least 3 and is the letter string of a
duplicate-free path. -/
theorem loop_words_invariant (g : Grid) :
    ∀ (fuel : Nat) (frontier : List (List Nat)) (acc ws : Finset (List Char)),
      (∀ p ∈ frontier, p.Nodup) →
      (∀ w ∈ acc, 3 ≤ w.length ∧
        ∃ p : List Nat, p.Nodup ∧ p.length = w.length ∧ wordOfE g p = .ok w) →
      fullSearchLoop g fuel frontier acc = some (.ok ws) →
      ∀ w ∈ ws, 3 ≤ w.length ∧
        ∃ p : List Nat, p.Nodup ∧ p.length = w.length ∧ wordOfE g p = .ok w := by
  intro fuel
  induction fuel with
  | zero =>
    intro _ _ _ _ _ h
    cases h
  | succ fuel ih =>
    intro frontier acc ws hfr hacc h
    cases frontier with
    | nil =>
      rw [fullSearchLoop] at h
      have := Except.ok.inj (Option.some.inj h)
      rw [← this]
      exact hacc
    | cons path rest =>
      rw [fullSearchLoop] at h
      cases hs : g.search path with
      | error e =>
        rw [hs] at h
        cases Option.some.inj h
      | ok pr =>
        obtain ⟨new_words, next_paths⟩ := pr
        rw [hs] at h
        have hpathnd : path.Nodup := hfr path (List.mem_cons_self path rest)
        apply ih (rest ++ next_paths) (acc ∪ new_words.toFinset) ws ?hfr ?hacc h
        case hfr =>
          intro p hp
          rw [List.mem_append] at hp
          cases hp with
          | inl hp => exact hfr p (List.mem_cons_of_mem path hp)
          | inr hp =>
            obtain ⟨l, rfl, _, hlp⟩ := candidates_shape g path p
              (search_ok_next_sub g path new_words next_paths hs p hp)
            exact nodup_append_singleton path l hpathnd hlp
        case hacc =>
          intro w hw
          rw [Finset.mem_union] at hw
          cases hw with
          | inl hw => exact hacc w hw
          | inr hw =>
            rw [List.mem_toFinset] at hw
            obtain ⟨hlen2, q, hq, hqw⟩ := search_ok_words g path new_words next_paths hs w hw
            obtain ⟨l, rfl, _, hlp⟩ := candidates_shape g path q hq
            have hwlen : w.length = path.length + 1 := by
              rw [mapM_ok_length _ _ _ hqw, List.length_append, List.length_cons]
              rfl
            refine ⟨by omega, path ++ [l], nodup_append_singleton path l hpathnd hlp, ?_, hqw⟩
            rw [hwlen, List.length_append]
            rfl

/-- C5: for every grid, dictionary, and start cell, every word the frontier
loop of `full_search` returns has length at least 3 and is produced as the
letter string of a path in which no cell index appears twice. -/
theorem C5_words_nodup_min3 (g : Grid) (start : Nat) (fuel : Nat)
    (ws : Finset (List Char))
    (h : fullSearchLoop g fuel [[start]] ∅ = some (.ok ws)) :
    ∀ w ∈ ws, 3 ≤ w.length ∧
      ∃ p : List Nat, p.Nodup ∧ p.length = w.length ∧ wordOfE g p = .ok w := by
  apply loop_words_invariant g fuel [[start]] ∅ ws ?_ ?_ h
  · intro p hp
    rw [List.mem_singleton] at hp
    subst hp
    exact List.nodup_singleton start
  · intro w hw
    cases hw

/-- Witness for C5: on the `cats` grid the loop from cell 0 returns exactly
the word `cat`, which has length 3 and comes from a duplicate-free path. -/
theorem C5_words_nodup_min3_witness :
    3 ≤ (['c', 'a', 't'] : List Char).length ∧
    ∃ p : List Nat, p.Nodup ∧ p.length = (['c', 'a', 't'] : List Char).length ∧
      wordOfE gridCats p = .ok ['c', 'a', 't'] :=
  C5_words_nodup_min3 gridCats 0 6 {['c', 'a', 't']} (by rfl) ['c', 'a', 't'] (by decide)

/-- A successful expansion forwards at most as many paths as the last cell
has table neighbors. -/
theorem search_ok_next_len (g : Grid) (path : List Nat) (ws : List (List Char))
    (nps : List (List Nat)) (h : g.search path = .ok (ws, nps)) :
    nps.length ≤ (graphLookup g.graph ((path.getLast?).getD 0)).length := by
  have hc : (g.candidates path).length ≤
      (graphLookup g.graph ((path.getLast?).getD 0)).length := by
    unfold Grid.candidates
    rw [List.length_map]
    exact List.length_filter_le _ _
  unfold Grid.search at h
  split at h
  case isTrue =>
    have := (Prod.mk.injEq _ _ _ _ |>.mp (Except.ok.inj h)).2
    rw [← this]
    exact hc
  case isFalse =>
    unfold Grid.checkCandidates at h
    split at h
    · exact absurd h (by simp)
    case h_2 cws hw =>
      split at h
      · exact absurd h (by simp)
      case h_2 valid hv =>
        split at h
        · exact absurd h (by simp)
        case h_2 =>
          have heq := (Prod.mk.injEq _ _ _ _ |>.mp (Except.ok.inj h)).2
          rw [← heq]
          calc (((g.candidates path).zip (valid.map Prod.snd)).filterMap
                  (fun p => if p.2 then some p.1 else none)).length
              ≤ ((g.candidates path).zip (valid.map Prod.snd)).length :=
                List.length_filterMap_le _ _
            _ ≤ (g.candidates path).length := by
                rw [List.length_zip]
                exact min_le_left _ _
            _ ≤ _ := hc

/-- Every entry of the constructed adjacency table is a neighbor list. -/
theorem buildGraph_entry_form (R C : Nat) (cells : List (Nat × Nat × Char)) :
    ∀ p ∈ buildGraph R C cells, ∃ r c, p = (flatIdx R r c, graphEntry R C r c) := by
  unfold buildGraph
  rw [buildGraph_eq_reverse]
  intro p hp
  rw [List.append_nil, List.mem_reverse, List.mem_map] at hp
  obtain ⟨q, _, rfl⟩ := hp
  exact ⟨q.1, q.2.1, rfl⟩

/-- A lookup in the constructed table is either empty or a neighbor list. -/
theorem graphLookup_form (R C : Nat) (cells : List (Nat × Nat × Char)) (i : Nat) :
    graphLookup (buildGraph R C cells) i = [] ∨
    ∃ r c, graphLookup (buildGraph R C cells) i = graphEntry R C r c := by
  unfold graphLookup
  cases hf : (buildGraph R C cells).find? (fun p => p.1 == i) with
  | none => exact Or.inl rfl
  | some p =>
    right
    obtain ⟨r, c, rfl⟩ := buildGraph_entry_form R C cells p (List.mem_of_find?_eq_some hf)
    exact ⟨r, c, rfl⟩

/-- A neighbor list never has more than 9 entries. -/
theorem graphEntry_length_le9 (R C r c : Nat) : (graphEntry R C r c).length ≤ 9 := by
  unfold graphEntry neighbors
  calc (List.filter (fun j => j != flatIdx R r c)
          (((List.product (offs r) (offs c)).filter
            (fun p => inb R p.1 && inb C p.2)).map
              (fun p => p.1.toNat * R + p.2.toNat))).length
      ≤ (((List.product (offs r) (offs c)).filter
            (fun p => inb R p.1 && inb C p.2)).map
              (fun p => p.1.toNat * R + p.2.toNat)).length := List.length_filter_le _ _
    _ = ((List.product (offs r) (offs c)).filter
            (fun p => inb R p.1 && inb C p.2)).length := List.length_map _ _
    _ ≤ (List.product (offs r) (offs c)).length := List.length_filter_le _ _
    _ = 9 := by rw [product_length]; rfl

/-- Every value in a neighbor list is below `(R - 1) * R + C`. -/
theorem graphEntry_values_lt (R C r c : Nat) :
    ∀ j ∈ graphEntry R C r c, j < (R - 1) * R + C := by
  intro j hj
  unfold graphEntry neighbors at hj
  rw [List.mem_filter] at hj
  have hj1 := hj.1
  rw [List.mem_map] at hj1
  obtain ⟨p, hp, rfl⟩ := hj1
  rw [List.mem_filter] at hp
  have hb := hp.2
  rw [Bool.and_eq_true_iff] at hb
  unfold inb at hb
  rw [Bool.and_eq_true_iff] at hb
  obtain ⟨⟨hb1, hb2⟩, hb3⟩ := hb
  rw [Bool.and_eq_true_iff] at hb3
  obtain ⟨hb3, hb4⟩ := hb3
  have h1 : (0 : Int) ≤ p.1 := of_decide_eq_true hb1
  have h2 : p.1 < (R : Int) := of_decide_eq_true hb2
  have h0 : (0 : Int) ≤ p.2 := of_decide_eq_true hb3
  have h3 : p.2 < (C : Int) := of_decide_eq_true hb4
  have hp1 : p.1.toNat ≤ R - 1 := by omega
  have hp2 : p.2.toNat < C := by omega
  have hm := Nat.mul_le_mul_right R hp1
  exact Nat.add_lt_add_of_le_of_lt hm hp2

/-- A duplicate-free list over `{s} ∪ [0, K)` has at most `K + 1` entries. -/
theorem nodup_length_le (p : List Nat) (K s : Nat) (hnd : p.Nodup)
    (hx : ∀ x ∈ p, x < K ∨ x = s) : p.length ≤ K + 1 := by
  have hsub : ∀ x ∈ p.toFinset, x ∈ insert s (Finset.range K) := by
    intro x hx'
    rw [List.mem_toFinset] at hx'
    rcases hx x hx' with h | h
    · rw [Finset.mem_insert]
      exact Or.inr (Finset.mem_range.mpr h)
    · rw [Finset.mem_insert]
      exact Or.inl h
  calc p.length = p.toFinset.card := (List.toFinset_card_of_nodup hnd).symm
    _ ≤ (insert s (Finset.range K)).card := Finset.card_le_card hsub
    _ ≤ (Finset.range K).card + 1 := Finset.card_insert_le _ _
    _ = K + 1 := by rw [Finset.card_range]

/-- Measure of one frontier path: shrinking exponentially in its length. -/
def pathWeight (B : Nat) (p : List Nat) : Nat := 16 ^ (B - p.length)

/-- Measure of a frontier: the sum of its paths' weights. -/
def frontierWeight (B : Nat) (F : List (List Nat)) : Nat :=
  (F.map (pathWeight B)).sum

/-- The frontier measure is additive over append. -/
theorem frontierWeight_append (B : Nat) (F1 F2 : List (List Nat)) :
    frontierWeight B (F1 ++ F2) = frontierWeight B F1 + frontierWeight B F2 := by
  unfold frontierWeight
  rw [List.map_append, List.sum_append]

/-- The frontier measure of a cons. -/
theorem frontierWeight_cons (B : Nat) (p : List Nat) (F : List (List Nat)) :
    frontierWeight B (p :: F) = pathWeight B p + frontierWeight B F := by
  unfold frontierWeight
  rw [List.map_cons, List.sum_cons]

/-- Frontier measure of a frontier of constant path length. -/
theorem frontierWeight_const_len (B L : Nat) :
    ∀ (F : List (List Nat)), (∀ q ∈ F, q.length = L) →
      frontierWeight B F = F.length * 16 ^ (B - L) := by
  intro F
  induction F with
  | nil =>
    intro _
    simp [frontierWeight]
  | cons q F ih =>
    intro hF
    rw [frontierWeight_cons, ih (fun q hq => hF q (List.mem_cons_of_mem _ hq)),
        List.length_cons]
    unfold pathWeight
    rw [hF q (List.mem_cons_self q F)]
    ring

/-- Termination of the frontier loop: on a grid whose adjacency table has
short entries with bounded values, the loop ends (with a result or an
exception) within any fuel exceeding the frontier measure. -/
theorem loop_terminates (g : Grid) (K : Nat)
    (hlen9 : ∀ i, (graphLookup g.graph i).length ≤ 9)
    (hval : ∀ i, ∀ j ∈ graphLookup g.graph i, j < K) :
    ∀ (fuel : Nat) (F : List (List Nat)) (acc : Finset (List Char)) (s : Nat),
      (∀ p ∈ F, p ≠ [] ∧ p.Nodup ∧ ∀ x ∈ p, x < K ∨ x = s) →
      frontierWeight (K + 3) F < fuel →
      ∃ r, fullSearchLoop g fuel F acc = some r := by
  intro fuel
  induction fuel with
  | zero =>
    intro F acc s _ hw
    exact absurd hw (Nat.not_lt_zero _)
  | succ fuel ih =>
    intro F acc s hinv hw
    cases F with
    | nil => exact ⟨.ok acc, by rw [fullSearchLoop]⟩
    | cons path rest =>
      cases hs : g.search path with
      | error e => exact ⟨.error e, by rw [fullSearchLoop, hs]⟩
      | ok pr =>
        obtain ⟨ws, nps⟩ := pr
        obtain ⟨hne, hnd, hcell⟩ := hinv path (List.mem_cons_self path rest)
        have hL : path.length ≤ K + 1 := nodup_length_le path K s hnd hcell
        have hnps_shape : ∀ q ∈ nps, q.length = path.length + 1 ∧ q ≠ [] ∧ q.Nodup ∧
            ∀ x ∈ q, x < K ∨ x = s := by
          intro q hq
          obtain ⟨l, rfl, hlmem, hlnot⟩ := candidates_shape g path q
            (search_ok_next_sub g path ws nps hs q hq)
          refine ⟨by rw [List.length_append]; rfl, by simp, nodup_append_singleton path l hnd hlnot, ?_⟩
          intro x hx
          rw [List.mem_append] at hx
          cases hx with
          | inl hx => exact hcell x hx
          | inr hx =>
            rw [List.mem_singleton] at hx
            subst hx
            exact Or.inl (hval _ x hlmem)
        have hnps_len : nps.length ≤ 9 :=
          le_trans (search_ok_next_len g path ws nps hs) (hlen9 _)
        have hwt : frontierWeight (K + 3) (rest ++ nps) < fuel := by
          rw [frontierWeight_append]
          rw [frontierWeight_cons] at hw
          have hfw : frontierWeight (K + 3) nps =
              nps.length * 16 ^ (K + 3 - (path.length + 1)) :=
            frontierWeight_const_len (K + 3) (path.length + 1) nps
              (fun q hq => (hnps_shape q hq).1)
          have hexp : K + 3 - path.length = (K + 3 - (path.length + 1)) + 1 := by omega
          have hlt : nps.length * 16 ^ (K + 3 - (path.length + 1)) <
              pathWeight (K + 3) path := by
            unfold pathWeight
            rw [hexp, pow_succ]
            have hpos : 0 < 16 ^ (K + 3 - (path.length + 1)) := Nat.pos_pow_of_pos _ (by omega)
            calc nps.length * 16 ^ (K + 3 - (path.length + 1))
                ≤ 9 * 16 ^ (K + 3 - (path.length + 1)) :=
                  Nat.mul_le_mul_right _ hnps_len
              _ < 16 * 16 ^ (K + 3 - (path.length + 1)) := by
                  exact Nat.mul_lt_mul_of_lt_of_le (by omega) (le_refl _) hpos
              _ = 16 ^ (K + 3 - (path.length + 1)) * 16 := by ring
          rw [hfw]
          omega
        obtain ⟨r, hr⟩ := ih (rest ++ nps) (acc ∪ ws.toFinset) s
          (by
            intro p hp
            rw [List.mem_append] at hp
            cases hp with
            | inl hp => exact hinv p (List.mem_cons_of_mem path hp)
            | inr hp => exact (hnps_shape p hp).2)
          hwt
        exact ⟨r, by rw [fullSearchLoop, hs]; exact hr⟩

/-- The implemented full search on a constructed grid always reaches a
result within its iteration budget. -/
theorem full_search_some (rows : List (List Char)) (d : Trie) (start : Nat) :
    ∃ r, (Grid.ofRows rows d).full_search start = some r := by
  unfold Grid.full_search
  refine loop_terminates (Grid.ofRows rows d) (Grid.ofRows rows d).maxCell ?_ ?_
    _ _ ∅ start ?_ ?_
  · intro i
    show (graphLookup (buildGraph rows.length ((rows.headD []).length)
      (gridCells rows)) i).length ≤ 9
    rcases graphLookup_form rows.length ((rows.headD []).length) (gridCells rows) i
      with h | ⟨rr, cc, h⟩
    · rw [h]
      simp
    · rw [h]
      exact graphEntry_length_le9 _ _ _ _
  · intro i j hj
    have hj' : j ∈ graphLookup (buildGraph rows.length ((rows.headD []).length)
        (gridCells rows)) i := hj
    rcases graphLookup_form rows.length ((rows.headD []).length) (gridCells rows) i
      with h | ⟨rr, cc, h⟩
    · rw [h] at hj'
      cases hj'
    · rw [h] at hj'
      exact graphEntry_values_lt _ _ _ _ j hj'
  · intro p hp
    rw [List.mem_singleton] at hp
    subst hp
    refine ⟨by simp, List.nodup_singleton start, ?_⟩
    intro x hx
    rw [List.mem_singleton] at hx
    exact Or.inr hx
  · rw [frontierWeight_cons]
    unfold frontierWeight pathWeight Grid.fuelBound
    simp only [List.map_nil, List.sum_nil, List.length_singleton]
    have : (Grid.ofRows rows d).maxCell + 3 - 1 = (Grid.ofRows rows d).maxCell + 2 := by
      omega
    rw [this]
    omega

/-- C9: for every grid built by Grid construction, every trie, and every
start cell, `full_search` performs only finitely many expansion rounds — with
the iteration budget `fuelBound` the loop always reaches a result (every
forwarded path is strictly longer than its parent and repeats no cell, so
path lengths are bounded and every branch dies or exhausts the grid) — and as
soon as the frontier is empty the loop returns the accumulated word set. -/
theorem C9_full_search_terminates (rows : List (List Char)) (d : Trie) (start : Nat) :
    (∃ r, (Grid.ofRows rows d).full_search start = some r) ∧
    (∀ (g : Grid) (acc : Finset (List Char)) (fuel : Nat),
      fullSearchLoop g (fuel + 1) [] acc = some (.ok acc)) :=
  ⟨full_search_some rows d start, fun g acc _ => by rw [fullSearchLoop]⟩

/-- A well-formed alphabet maps every character into `0 .. n_alpha - 1`. -/
theorem alphaGet_lt (alpha : List (Char × Nat)) (hA : alphaWF alpha = true)
    (ch : Char) (i : Nat) (h : alphaGet alpha ch = some i) : i < alpha.length := by
  unfold alphaGet at h
  cases hf : alpha.find? (fun p => p.1 == ch) with
  | none =>
    rw [hf] at h
    cases h
  | some p =>
    rw [hf] at h
    have hp : p.2 = i := Option.some.inj h
    have hmem := List.mem_of_find?_eq_some hf
    have := List.all_eq_true.mp hA p hmem
    simpa [hp] using this

/-- Searching any nonempty in-alphabet key in a freshly constructed trie
reports `(False, False)`: the root has no children. -/
theorem search_new_trie (alpha : List (Char × Nat)) (hA : alphaWF alpha = true)
    (key : List Char) (hne : key ≠ [])
    (hmap : ∀ c ∈ key, (alphaGet alpha c).isSome = true) :
    (Trie.new alpha).search key = .ok (false, false) := by
  unfold Trie.search
  show (if (key.all fun c => (alphaGet alpha c).isSome) = true then
      searchFrom alpha key (TrieNode.new alpha.length)
    else Except.error Err.alphabetMismatch) = Except.ok (false, false)
  rw [if_pos (List.all_eq_true.mpr hmap)]
  cases key with
  | nil => exact absurd rfl hne
  | cons ch rest =>
    unfold TrieNode.new
    rw [searchFrom]
    cases halpha : alphaGet alpha ch with
    | none =>
      have := hmap ch (List.mem_cons_self ch rest)
      rw [halpha] at this
      cases this
    | some i =>
      have hi : i < (List.replicate alpha.length
          (none : Option TrieNode)).length := by
        rw [List.length_replicate]
        exact alphaGet_lt alpha hA ch i halpha
      dsimp only
      rw [dif_pos hi]
      rw [List.get_replicate]

/-- Each element of a successful `mapM` input is sent to some element of the
output. -/
theorem mapM_ok_forward {α β : Type} (f : α → Except Err β) :
    ∀ (l : List α) (r : List β), List.mapM f l = .ok r →
      ∀ a ∈ l, ∃ b ∈ r, f a = .ok b := by
  intro l
  induction l with
  | nil =>
    intro r _ a ha
    cases ha
  | cons x l ih =>
    intro r h a ha
    obtain ⟨v, vs, hfx, hl, rfl⟩ := mapM_ok_cons f x l r h
    cases ha with
    | head => exact ⟨v, List.mem_cons_self v vs, hfx⟩
    | tail _ hm =>
      obtain ⟨b, hb, hfb⟩ := ih vs hl a hm
      exact ⟨b, List.mem_cons_of_mem v hb, hfb⟩

/-- If every element maps successfully, the whole `mapM` succeeds. -/
theorem mapM_ok_exists {α β : Type} (f : α → Except Err β) :
    ∀ (l : List α), (∀ a ∈ l, ∃ b, f a = .ok b) → ∃ r, List.mapM f l = .ok r := by
  intro l
  induction l with
  | nil => exact fun _ => ⟨[], List.mapM_nil f⟩
  | cons a l ih =>
    intro h
    obtain ⟨b, hb⟩ := h a (List.mem_cons_self a l)
    obtain ⟨r, hr⟩ := ih (fun x hx => h x (List.mem_cons_of_mem a hx))
    refine ⟨b :: r, ?_⟩
    rw [List.mapM_cons, hb, hr]
    rfl

/-- A successful expansion whose candidate words are all dead in the trie
emits nothing and forwards nothing. -/
theorem search_ok_of_dead (g : Grid) (path : List Nat) (cws : List (List Char))
    (h2 : 2 ≤ path.length) (hne : g.candidates path ≠ [])
    (hw : List.mapM (wordOfE g) (g.candidates path) = .ok cws)
    (hdead : ∀ w ∈ cws, g.dictionary.search w = .ok (false, false)) :
    g.search path = .ok ([], []) := by
  obtain ⟨valid, hv⟩ := mapM_ok_exists g.dictionary.search cws
    (fun w hwm => ⟨(false, false), hdead w hwm⟩)
  rw [search_formula g path cws valid h2 hne hw hv]
  have hW : cws.filter g.isWordAt = [] := by
    rw [List.filter_eq_nil]
    intro w hwm
    unfold Grid.isWordAt
    rw [hdead w hwm]
    simp
  have hE : (g.candidates path).filter g.isExtendableAt = [] := by
    rw [List.filter_eq_nil]
    intro q hq
    unfold Grid.isExtendableAt
    obtain ⟨w, hwm, hqw⟩ := mapM_ok_forward (wordOfE g) _ cws hw q hq
    rw [hqw]
    show (match (Except.ok w).bind g.dictionary.search with
      | .ok p => p.2
      | .error _ => false) ≠ true
    simp only [Except.bind]
    rw [hdead w hwm]
    simp
  rw [hW, hE]

/-- A duplicate-free list contained in another list is no longer than it. -/
theorem nodup_subset_length_le (l' p : List Nat) (hnd : l'.Nodup)
    (hsub : ∀ x ∈ l', x ∈ p) : l'.length ≤ p.length := by
  calc l'.length = l'.toFinset.card := (List.toFinset_card_of_nodup hnd).symm
    _ ≤ p.toFinset.card := Finset.card_le_card (by
        intro x hx
        rw [List.mem_toFinset] at hx ⊢
        exact hsub x hx)
    _ ≤ p.length := List.toFinset_card_le p

/-- Filtering out the members of `path` from a duplicate-free list removes at
most `path.length` elements. -/
theorem filter_keep_length (l path : List Nat) (hnd : l.Nodup) :
    l.length ≤ (l.filter (fun x => !path.contains x)).length + path.length := by
  have hsplit := List.length_eq_countP_add_countP (fun x => !path.contains x) l
  rw [List.countP_eq_length_filter] at hsplit
  have h2 : List.countP (fun a => decide ¬((!path.contains a) = true)) l ≤ path.length := by
    rw [List.countP_eq_length_filter]
    apply nodup_subset_length_le _ path (List.Nodup.filter _ hnd)
    intro x hx
    rw [List.mem_filter] at hx
    have := hx.2
    simp only [decide_eq_true_eq, Bool.not_eq_true', Bool.not_eq_false] at this
    exact List.mem_of_elem_eq_true this
  omega

/-- The neighbor list of a square grid has no duplicates. -/
theorem neighbors_nodup_square (N r c : Nat) : (neighbors N N r c).Nodup := by
  unfold neighbors
  apply List.Nodup.map_on
  · intro p hp q hq hpq
    rw [List.mem_filter] at hp hq
    have hbp := hp.2
    have hbq := hq.2
    rw [Bool.and_eq_true_iff] at hbp hbq
    unfold inb at hbp hbq
    rw [Bool.and_eq_true_iff] at hbp hbq
    obtain ⟨⟨hbp1, hbp2⟩, hbp3⟩ := hbp
    rw [Bool.and_eq_true_iff] at hbp3
    obtain ⟨⟨hbq1, hbq2⟩, hbq3⟩ := hbq
    rw [Bool.and_eq_true_iff] at hbq3
    have p1 : (0 : Int) ≤ p.1 := of_decide_eq_true hbp1
    have p2 : p.1 < (N : Int) := of_decide_eq_true hbp2
    have p3 : (0 : Int) ≤ p.2 := of_decide_eq_true hbp3.1
    have p4 : p.2 < (N : Int) := of_decide_eq_true hbp3.2
    have q1 : (0 : Int) ≤ q.1 := of_decide_eq_true hbq1
    have q2 : q.1 < (N : Int) := of_decide_eq_true hbq2
    have q3 : (0 : Int) ≤ q.2 := of_decide_eq_true hbq3.1
    have q4 : q.2 < (N : Int) := of_decide_eq_true hbq3.2
    have hlt1 : p.2.toNat < N := by omega
    have hlt2 : q.2.toNat < N := by omega
    obtain ⟨e1, e2⟩ := flatIdx_inj N p.1.toNat p.2.toNat q.1.toNat q.2.toNat hlt1 hlt2 hpq
    have h1 : p.1 = q.1 := by omega
    have h2 : p.2 = q.2 := by omega
    obtain ⟨pa, pb⟩ := p
    obtain ⟨qa, qb⟩ := q
    simp only at h1 h2
    rw [h1, h2]
  · exact List.Nodup.filter _ (product_nodup (offs_nodup r) (offs_nodup c))

/-- The adjacency entry of a square grid has no duplicates. -/
theorem graphEntry_nodup_square (N r c : Nat) : (graphEntry N N r c).Nodup :=
  List.Nodup.filter _ (neighbors_nodup_square N r c)

/-- Each in-bounds dimension contributes at least two offsets. -/
theorem offs_filter_length_ge2 (v N : Nat) (hN : 2 ≤ N) (hv : v < N) :
    2 ≤ ((offs v).filter (inb N)).length := by
  by_cases h1 : 1 ≤ v
  · by_cases h2 : v + 1 < N
    · rw [offs_filter_length_mid v N h1 h2]
      omega
    · have hb : v + 1 = N := by omega
      rw [offs_filter_length_boundary v N hN hv (Or.inr hb)]
  · have hb : v = 0 := by omega
    rw [offs_filter_length_boundary v N hN hv (Or.inl hb)]

/-- The adjacency entry of a square-grid cell has at least 3 neighbors when
the grid is at least 2 x 2. -/
theorem graphEntry_length_ge3 (N r c : Nat) (hN : 2 ≤ N) (hr : r < N) (hc : c < N) :
    3 ≤ (graphEntry N N r c).length := by
  rw [graphEntry_length_square N r c hr hc]
  have h1 := offs_filter_length_ge2 r N hN hr
  have h2 := offs_filter_length_ge2 c N hN hc
  have := Nat.mul_le_mul h1 h2
  omega

/-- On a square grid, the adjacency table of the constructed grid agrees with
the neighbor-list function. -/
theorem ofRows_graph_square (rows : List (List Char)) (d : Trie) (N : Nat)
    (hlen : rows.length = N) (hC : ∀ row ∈ rows, row.length = N) (hN : 1 ≤ N) :
    (Grid.ofRows rows d).graph = buildGraph N N (gridCells rows) := by
  have hhead : (rows.headD []).length = N := by
    cases rows with
    | nil => simp at hlen; omega
    | cons row rest => exact hC row (List.mem_cons_self row rest)
  unfold Grid.ofRows
  dsimp only
  rw [hlen, hhead]

/-- On a square grid, looking up any flattened index below `N * N` yields the
neighbor list of the corresponding cell. -/
theorem ofRows_lookup_square (rows : List (List Char)) (d : Trie) (N : Nat)
    (hlen : rows.length = N) (hC : ∀ row ∈ rows, row.length = N) (hN : 1 ≤ N)
    (j : Nat) (hj : j < N * N) :
    graphLookup (Grid.ofRows rows d).graph j = graphEntry N N (j / N) (j % N) ∧
    j / N < N ∧ j % N < N := by
  have hNpos : 0 < N := hN
  have hr : j / N < N := Nat.div_lt_of_lt_mul (by rw [Nat.mul_comm] at hj ⊢; exact hj)
  have hc : j % N < N := Nat.mod_lt j hNpos
  have hflat : flatIdx N (j / N) (j % N) = j := by
    unfold flatIdx
    rw [Nat.mul_comm]
    exact Nat.div_add_mod j N
  refine ⟨?_, hr, hc⟩
  rw [ofRows_graph_square rows d N hlen hC hN]
  have := graphLookup_buildGraph_square rows N hlen hC (j / N) (j % N) hr hc
  rw [hflat] at this
  exact this

/-- Square-grid neighbor values are below `N * N`. -/
theorem graphEntry_values_lt_square (N r c : Nat) (hN : 1 ≤ N) :
    ∀ j ∈ graphEntry N N r c, j < N * N := by
  intro j hj
  have := graphEntry_values_lt N N r c j hj
  have heq : (N - 1) * N + N = N * N := by
    have h1 : N - 1 + 1 = N := by omega
    calc (N - 1) * N + N = ((N - 1) + 1) * N := by ring
      _ = N * N := by rw [h1]
  omega

/-- On a square grid (N at least 2), a nonempty path of at most 2 cells
always has at least one candidate extension. -/
theorem candidates_nonempty_short (rows : List (List Char)) (d : Trie) (N : Nat)
    (hN : 2 ≤ N) (hlen : rows.length = N) (hC : ∀ row ∈ rows, row.length = N)
    (path : List Nat) (hplen : path.length ≤ 2) (hpne : path ≠ [])
    (hcells : ∀ x ∈ path, x < N * N) :
    (Grid.ofRows rows d).candidates path ≠ [] := by
  have hlast : (path.getLast?).getD 0 ∈ path := by
    rw [List.getLast?_eq_getLast path hpne]
    exact List.getLast_mem hpne
  have hj : (path.getLast?).getD 0 < N * N := hcells _ hlast
  obtain ⟨hlook, hr, hc⟩ := ofRows_lookup_square rows d N hlen hC (by omega) _ hj
  unfold Grid.candidates
  intro hemp
  rw [List.map_eq_nil] at hemp
  have hkeep := filter_keep_length (graphLookup (Grid.ofRows rows d).graph
    ((path.getLast?).getD 0)) path (by rw [hlook]; exact graphEntry_nodup_square N _ _)
  rw [hemp] at hkeep
  have hge3 : 3 ≤ (graphLookup (Grid.ofRows rows d).graph
      ((path.getLast?).getD 0)).length := by
    rw [hlook]
    exact graphEntry_length_ge3 N _ _ hN hr hc
  simp at hkeep
  omega

/-- A candidate path whose cells are all in range has a letter string, and
every character of that string occurs among the grid letters. -/
theorem wordOfE_exists (g : Grid) (cand : List Nat)
    (hcells : ∀ x ∈ cand, x < g.letters.length) :
    ∃ w, wordOfE g cand = .ok w ∧ w.length = cand.length ∧
      ∀ ch ∈ w, ch ∈ g.letters := by
  have hall : ∀ i ∈ cand, ∃ ch, (fun i => match g.letters.get? i with
      | some ch => Except.ok ch
      | none => Except.error Err.indexError) i = Except.ok ch := by
    intro i hi
    cases hg : g.letters.get? i with
    | none =>
      rw [List.get?_eq_none] at hg
      exact absurd (hcells i hi) (by omega)
    | some ch =>
      refine ⟨ch, ?_⟩
      dsimp only
      rw [hg]
  obtain ⟨w, hw⟩ := mapM_ok_exists _ cand hall
  refine ⟨w, hw, mapM_ok_length _ _ _ hw, ?_⟩
  intro ch hch
  obtain ⟨i, _, hfi⟩ := mapM_ok_mem _ cand w hw ch hch
  cases hg : g.letters.get? i with
  | none =>
    rw [hg] at hfi
    cases hfi
  | some ch' =>
    rw [hg] at hfi
    obtain rfl := Except.ok.inj hfi
    exact List.get?_mem hg

/-- The flattened letter list of a uniform grid has `R * C` entries. -/
theorem ofRows_letters_len (rows : List (List Char)) (d : Trie) (R C : Nat)
    (hlen : rows.length = R) (hC : ∀ row ∈ rows, row.length = C) :
    (Grid.ofRows rows d).letters.length = R * C := by
  show rows.flatten.length = R * C
  rw [List.length_flatten]
  have : rows.map List.length = List.replicate R C := by
    rw [List.eq_replicate]
    constructor
    · rw [List.length_map, hlen]
    · intro x hx
      rw [List.mem_map] at hx
      obtain ⟨row, hrow, rfl⟩ := hx
      exact hC row hrow
  rw [this, List.sum_replicate, smul_eq_mul]

/-- On a square grid with an empty dictionary, expanding any in-range 2-cell
path emits nothing and forwards nothing. -/
theorem search_len2_empty (rows : List (List Char)) (alpha : List (Char × Nat))
    (N : Nat) (hN : 2 ≤ N) (hlen : rows.length = N)
    (hC : ∀ row ∈ rows, row.length = N)
    (hA : alphaWF alpha = true)
    (hmap : ∀ ch ∈ rows.flatten, (alphaGet alpha ch).isSome = true)
    (path : List Nat) (hplen : path.length = 2)
    (hcells : ∀ x ∈ path, x < N * N) :
    (Grid.ofRows rows (Trie.new alpha)).search path = .ok ([], []) := by
  have hpne : path ≠ [] := by
    intro h
    rw [h] at hplen
    cases hplen
  have hlets : (Grid.ofRows rows (Trie.new alpha)).letters.length = N * N :=
    ofRows_letters_len rows (Trie.new alpha) N N hlen hC
  have hne := candidates_nonempty_short rows (Trie.new alpha) N hN hlen hC
    path (by omega) hpne hcells
  have hcand_cells : ∀ q ∈ (Grid.ofRows rows (Trie.new alpha)).candidates path,
      ∀ x ∈ q, x < N * N := by
    intro q hq
    obtain ⟨l, rfl, hlm, _⟩ := candidates_shape _ path q hq
    intro x hx
    rw [List.mem_append] at hx
    cases hx with
    | inl hx => exact hcells x hx
    | inr hx =>
      rw [List.mem_singleton] at hx
      subst hx
      have hlast : (path.getLast?).getD 0 ∈ path := by
        rw [List.getLast?_eq_getLast path hpne]
        exact List.getLast_mem hpne
      obtain ⟨hlook, _, _⟩ := ofRows_lookup_square rows (Trie.new alpha) N hlen hC
        (by omega) _ (hcells _ hlast)
      rw [hlook] at hlm
      exact graphEntry_values_lt_square N _ _ (by omega) x hlm
  have hwords : ∀ q ∈ (Grid.ofRows rows (Trie.new alpha)).candidates path,
      ∃ w, wordOfE (Grid.ofRows rows (Trie.new alpha)) q = .ok w ∧
        (Grid.ofRows rows (Trie.new alpha)).dictionary.search w = .ok (false, false) := by
    intro q hq
    obtain ⟨l, hql, _, _⟩ := candidates_shape _ path q hq
    obtain ⟨w, hw, hwl, hwin⟩ := wordOfE_exists _ q (by
      intro x hx
      rw [hlets]
      exact hcand_cells q hq x hx)
    refine ⟨w, hw, ?_⟩
    show (Trie.new alpha).search w = .ok (false, false)
    apply search_new_trie alpha hA w
    · intro hwnil
      rw [hwnil] at hwl
      have : q.length = 0 := hwl.symm
      rw [hql, List.length_append] at this
      omega
    · intro c hc
      exact hmap c (hwin c hc)
  obtain ⟨cws, hcws⟩ := mapM_ok_exists (wordOfE (Grid.ofRows rows (Trie.new alpha)))
    ((Grid.ofRows rows (Trie.new alpha)).candidates path)
    (fun q hq => (hwords q hq).imp (fun w h => h.1))
  apply search_ok_of_dead _ path cws (by omega) hne hcws
  intro w hwm
  obtain ⟨q, hq, hqw⟩ := mapM_ok_mem _ _ cws hcws w hwm
  obtain ⟨w', hw', hdead⟩ := hwords q hq
  rw [hqw] at hw'
  obtain rfl := Except.ok.inj hw'
  exact hdead

/-- A frontier whose paths all expand to nothing drains without changing the
accumulator. -/
theorem loop_all_dead (g : Grid) :
    ∀ (F : List (List Nat)) (fuel : Nat) (acc : Finset (List Char)),
      (∀ p ∈ F, g.search p = .ok ([], [])) → F.length < fuel →
      fullSearchLoop g fuel F acc = some (.ok acc) := by
  intro F
  induction F with
  | nil =>
    intro fuel acc _ hf
    cases fuel with
    | zero => omega
    | succ fuel => rw [fullSearchLoop]
  | cons p rest ih =>
    intro fuel acc hdead hf
    cases fuel with
    | zero => omega
    | succ fuel =>
      rw [fullSearchLoop, hdead p (List.mem_cons_self p rest)]
      show fullSearchLoop g fuel (rest ++ []) (acc ∪ ([] : List (List Char)).toFinset) =
        some (.ok acc)
      rw [List.append_nil, List.toFinset_nil, Finset.union_empty]
      apply ih fuel acc (fun q hq => hdead q (List.mem_cons_of_mem p hq))
      rw [List.length_cons] at hf
      omega

/-- With an empty dictionary on a square grid, the full search from any
in-range start cell returns the empty word set. -/
theorem full_search_empty_dict (rows : List (List Char)) (alpha : List (Char × Nat))
    (N : Nat) (hN : 2 ≤ N) (hlen : rows.length = N)
    (hC : ∀ row ∈ rows, row.length = N)
    (hA : alphaWF alpha = true)
    (hmap : ∀ ch ∈ rows.flatten, (alphaGet alpha ch).isSome = true)
    (start : Nat) (hstart : start < N * N) :
    (Grid.ofRows rows (Trie.new alpha)).full_search start = some (.ok ∅) := by
  unfold Grid.full_search
  have hfuel : 11 ≤ (Grid.ofRows rows (Trie.new alpha)).fuelBound := by
    unfold Grid.fuelBound
    have : (16 : Nat) ^ 1 ≤ 16 ^ ((Grid.ofRows rows (Trie.new alpha)).maxCell + 2) :=
      Nat.pow_le_pow_right (by omega) (by omega)
    omega
  obtain ⟨fuel, hfb⟩ : ∃ fuel, (Grid.ofRows rows (Trie.new alpha)).fuelBound = fuel + 1 := by
    refine ⟨(Grid.ofRows rows (Trie.new alpha)).fuelBound - 1, by omega⟩
  rw [hfb]
  have hsearch1 : (Grid.ofRows rows (Trie.new alpha)).search [start] =
      .ok ([], (Grid.ofRows rows (Trie.new alpha)).candidates [start]) := by
    unfold Grid.search
    rw [if_pos (by simp)]
  rw [fullSearchLoop, hsearch1]
  show fullSearchLoop _ fuel ([] ++ (Grid.ofRows rows (Trie.new alpha)).candidates [start])
    (∅ ∪ ([] : List (List Char)).toFinset) = some (.ok ∅)
  rw [List.nil_append, List.toFinset_nil, Finset.union_empty]
  have hcandlen : ((Grid.ofRows rows (Trie.new alpha)).candidates [start]).length ≤ 9 := by
    unfold Grid.candidates
    rw [List.length_map]
    calc (List.filter _ (graphLookup (Grid.ofRows rows (Trie.new alpha)).graph
          (([start].getLast?).getD 0))).length
        ≤ (graphLookup (Grid.ofRows rows (Trie.new alpha)).graph
          (([start].getLast?).getD 0)).length := List.length_filter_le _ _
      _ ≤ 9 := by
        obtain ⟨hlook, _, _⟩ := ofRows_lookup_square rows (Trie.new alpha) N hlen hC
          (by omega) (([start].getLast?).getD 0) (by simpa using hstart)
        rw [hlook]
        exact graphEntry_length_le9 _ _ _ _
  apply loop_all_dead
  · intro p hp
    obtain ⟨l, rfl, hlm, _⟩ := candidates_shape _ [start] p hp
    have hlval : l < N * N := by
      obtain ⟨hlook, _, _⟩ := ofRows_lookup_square rows (Trie.new alpha) N hlen hC
        (by omega) (([start].getLast?).getD 0) (by simpa using hstart)
      rw [hlook] at hlm
      exact graphEntry_values_lt_square N _ _ (by omega) l hlm
    apply search_len2_empty rows alpha N hN hlen hC hA hmap
    · rfl
    · intro x hx
      rw [List.mem_append] at hx
      cases hx with
      | inl hx =>
        rw [List.mem_singleton] at hx
        subst hx
        exact hstart
      | inr hx =>
        rw [List.mem_singleton] at hx
        subst hx
        exact hlval
  · omega

/-- Folding the all-cells driver over per-cell empty results yields the empty
set. -/
theorem searchAll_empty (g : Grid)
    (h : ∀ i < g.R * g.C, g.full_search i = some (.ok ∅)) :
    g.searchAll = some (.ok ∅) := by
  unfold Grid.searchAll
  have hgen : ∀ (l : List Nat), (∀ i ∈ l, g.full_search i = some (Except.ok ∅)) →
      l.foldl (fun (acc : Option (Except Err (Finset (List Char)))) i =>
        match acc, g.full_search i with
        | some (Except.ok s), some (Except.ok s') => some (Except.ok (s ∪ s'))
        | some (Except.ok _), r => r
        | r, _ => r) (some (Except.ok ∅)) = some (Except.ok ∅) := by
    intro l
    induction l with
    | nil => intro _; rfl
    | cons i l ih =>
      intro hl
      rw [List.foldl_cons, hl i (List.mem_cons_self i l)]
      show l.foldl _ (some (Except.ok ((∅ : Finset (List Char)) ∪ ∅))) =
        some (Except.ok ∅)
      rw [Finset.union_empty]
      exact ih (fun j hj => hl j (List.mem_cons_of_mem i hj))
  apply hgen
  intro i hi
  rw [List.mem_range] at hi
  exact h i hi

/-- C3 (amended): for every square N x N grid with N at least 2, whose
letters all carry an index in a well-formed alphabet, if the dictionary is
empty (no word was ever inserted into the trie), the full search — the union
of `full_search(start)` over every start cell — returns the empty set.  (On
thinner or non-square grids the run can instead abort with an exception of
the kind described by C10 — see the counterexample.) -/
theorem C3_empty_dictionary (rows : List (List Char)) (alpha : List (Char × Nat))
    (N : Nat) (hN : 2 ≤ N) (hlen : rows.length = N)
    (hC : ∀ row ∈ rows, row.length = N)
    (hA : alphaWF alpha = true)
    (hmap : ∀ ch ∈ rows.flatten, (alphaGet alpha ch).isSome = true) :
    (Grid.ofRows rows (Trie.new alpha)).searchAll = some (.ok ∅) := by
  apply searchAll_empty
  intro i hi
  apply full_search_empty_dict rows alpha N hN hlen hC hA hmap
  have hR : (Grid.ofRows rows (Trie.new alpha)).R = N := hlen
  have hCC : (Grid.ofRows rows (Trie.new alpha)).C = N := by
    show (rows.headD []).length = N
    cases rows with
    | nil => simp at hlen; omega
    | cons row rest => exact hC row (List.mem_cons_self row rest)
  rw [hR, hCC] at hi
  exact hi

/-- C3 counterexample: the claim quantifies over every grid with R, C at
least 1, but on the 1 x 2 grid with an empty dictionary the full search
raises the empty-unpack `ValueError` instead of returning the empty set. -/
theorem C3_counterexample_1x2 :
    grid12.R = 1 ∧ grid12.C = 2 ∧ grid12.dictionary = Trie.new alphaAB ∧
    grid12.searchAll = some (.error .emptyUnpack) :=
  ⟨rfl, rfl, rfl, by rfl⟩

/-- A 2 x 2 all-`a` letter matrix. -/
def rowsAA : List (List Char) := [['a', 'a'], ['a', 'a']]

/-- Witness for C3 (amended) on the 2 x 2 all-`a` grid with an empty
dictionary over the alphabet containing `a`. -/
theorem C3_empty_dictionary_witness :
    (Grid.ofRows rowsAA (Trie.new [('a', 0)])).searchAll = some (.ok ∅) :=
  C3_empty_dictionary rowsAA [('a', 0)] 2 (by decide) rfl (by decide) (by decide)
    (by decide)

/-- No node within the first `d` levels of the trie (the node itself at depth
0) is marked as a word.  `WordFree 3 root` holds when every inserted word has
length at least 3. -/
inductive WordFree : Nat → TrieNode → Prop where
  | zero : ∀ node, WordFree 0 node
  | succ : ∀ (d : Nat) (cs : List (Option TrieNode)),
      (∀ u : TrieNode, some u ∈ cs → WordFree d u) → WordFree (d + 1) (.mk cs false)

/-- A fresh node is word-free at every depth. -/
theorem wordFree_new (n : Nat) : ∀ d, WordFree d (TrieNode.new n) := by
  intro d
  cases d with
  | zero => exact WordFree.zero _
  | succ d =>
    apply WordFree.succ
    intro u hu
    exact absurd (List.eq_of_mem_replicate hu) (by simp)

/-- Inserting a word no shorter than `d` keeps the first `d` levels free of
word marks. -/
theorem insertFrom_wordFree (n : Nat) (alpha : List (Char × Nat)) :
    ∀ (d : Nat) (w : List Char) (node node' : TrieNode),
      WordFree d node → d ≤ w.length →
      insertFrom n alpha w node = .ok node' → WordFree d node' := by
  intro d
  induction d with
  | zero => exact fun _ _ node' _ _ _ => WordFree.zero node'
  | succ d ihd =>
    intro w node node' hwf hlen hins
    cases w with
    | nil =>
      rw [List.length_nil] at hlen
      omega
    | cons ch rest =>
      cases hwf with
      | succ _ cs hch =>
        simp only [insertFrom] at hins
        split at hins
        · exact absurd hins (by simp)
        case h_2 i halpha =>
          split at hins
          case isTrue hi =>
            split at hins
            · exact absurd hins (by simp)
            case h_2 child' hrec =>
              obtain rfl := Except.ok.inj hins
              apply WordFree.succ
              intro u hu
              rcases List.mem_or_eq_of_mem_set hu with hmem | heq
              · exact hch u hmem
              · obtain rfl := Option.some.inj heq
                have hchild : WordFree d (match cs.get ⟨i, hi⟩ with
                    | some u => u
                    | none => TrieNode.new n) := by
                  cases hg : cs.get ⟨i, hi⟩ with
                  | none => exact wordFree_new n d
                  | some v =>
                    exact hch v (by rw [← hg]; exact List.get_mem cs i hi)
                exact ihd rest _ u hchild (by
                  rw [List.length_cons] at hlen
                  omega) hrec
          case isFalse => exact absurd hins (by simp)

/-- Walking `w` levels from a node that is word-free to depth `w + 1` cannot
report `isWord`. -/
theorem searchFrom_wordFree (alpha : List (Char × Nat)) :
    ∀ (w : List Char) (node : TrieNode) (b e : Bool),
      WordFree (w.length + 1) node →
      searchFrom alpha w node = .ok (b, e) → b = false := by
  intro w
  induction w with
  | nil =>
    intro node b e hwf hs
    cases hwf with
    | succ _ cs _ =>
      rw [searchFrom] at hs
      exact ((Prod.mk.injEq _ _ _ _).mp (Except.ok.inj hs)).1.symm
  | cons ch rest ih =>
    intro node b e hwf hs
    cases hwf with
    | succ _ cs hch =>
      simp only [searchFrom] at hs
      split at hs
      · exact absurd hs (by simp)
      case h_2 i halpha =>
        split at hs
        case isTrue hi =>
          split at hs
          case h_1 hg =>
            exact ((Prod.mk.injEq _ _ _ _).mp (Except.ok.inj hs)).1.symm
          case h_2 child hg =>
            apply ih child b e ?_ hs
            have := hch child (by rw [← hg]; exact List.get_mem cs i hi)
            simpa [List.length_cons] using this
        case isFalse => exact absurd hs (by simp)

/-- Inserting a word preserves the per-node slot-count invariant. -/
theorem insertFrom_wfB (alpha : List (Char × Nat)) :
    ∀ (w : List Char) (node node' : TrieNode),
      TrieNode.wfB alpha.length node = true →
      insertFrom alpha.length alpha w node = .ok node' →
      TrieNode.wfB alpha.length node' = true := by
  intro w
  induction w with
  | nil =>
    intro node node' hwf hins
    cases node with
    | mk cs iw =>
      rw [insertFrom] at hins
      obtain rfl := Except.ok.inj hins
      rw [TrieNode.wfB] at hwf ⊢
      exact hwf
  | cons ch rest ih =>
    intro node node' hwf hins
    cases node with
    | mk cs iw =>
      simp only [insertFrom] at hins
      split at hins
      · exact absurd hins (by simp)
      case h_2 i halpha =>
        split at hins
        case isTrue hi =>
          split at hins
          · exact absurd hins (by simp)
          case h_2 child' hrec =>
            obtain rfl := Except.ok.inj hins
            rw [TrieNode.wfB, Bool.and_eq_true_iff] at hwf
            have hchild : TrieNode.wfB alpha.length (match cs.get ⟨i, hi⟩ with
                | some u => u
                | none => TrieNode.new alpha.length) = true := by
              cases hg : cs.get ⟨i, hi⟩ with
              | none => exact wfB_new alpha.length
              | some v =>
                exact wfListB_mem alpha.length cs hwf.2 v
                  (by rw [← hg]; exact List.get_mem cs i hi)
            have hchild' := ih _ child' hchild hrec
            rw [TrieNode.wfB, Bool.and_eq_true_iff]
            constructor
            · rw [List.length_set]
              exact hwf.1
            · exact wfListB_set alpha.length cs i child' hwf.2 hchild'
        case isFalse => exact absurd hins (by simp)

/-- Loading a batch of words of length at least 3 into a fresh-rooted trie
keeps the alphabet, the slot-count invariant, and word-freeness of the first
three levels. -/
theorem insertAll_inv (alpha : List (Char × Nat)) :
    ∀ (words : List (List Char)) (t0 t : Trie),
      Trie.insertAll t0 words = .ok t →
      t0.alphabet = alpha →
      TrieNode.wfB alpha.length t0.root = true →
      WordFree 3 t0.root →
      (∀ w ∈ words, 3 ≤ w.length) →
      t.alphabet = alpha ∧ TrieNode.wfB alpha.length t.root = true ∧
        WordFree 3 t.root := by
  intro words
  induction words with
  | nil =>
    intro t0 t h ha hwf hwf3 _
    unfold Trie.insertAll at h
    rw [List.foldlM_nil] at h
    obtain rfl := Except.ok.inj h
    exact ⟨ha, hwf, hwf3⟩
  | cons w ws ih =>
    intro t0 t h ha hwf hwf3 hlen
    unfold Trie.insertAll at h
    rw [List.foldlM_cons] at h
    cases hins : t0.insert w with
    | error e =>
      rw [hins] at h
      simp [Bind.bind, Except.bind] at h
    | ok t1 =>
      rw [hins] at h
      simp only [Bind.bind, Except.bind] at h
      unfold Trie.insert at hins
      split at hins
      · exact absurd hins (by simp)
      case h_2 r hr =>
        obtain rfl := Except.ok.inj hins
        have hr' : insertFrom alpha.length alpha w t0.root = .ok r := by
          have : t0.n_alpha = alpha.length := by
            show t0.alphabet.length = alpha.length
            rw [ha]
          rw [this, ha] at hr
          exact hr
        have hwf1 : TrieNode.wfB alpha.length r = true :=
          insertFrom_wfB alpha w t0.root r hwf hr'
        have hwf31 : WordFree 3 r :=
          insertFrom_wordFree alpha.length alpha 3 w t0.root r hwf3
            (hlen w (List.mem_cons_self w ws)) hr'
        exact ih ⟨t0.alphabet, r⟩ t h ha hwf1 hwf31
          (fun x hx => hlen x (List.mem_cons_of_mem w hx))

/-- A well-formed trie walk over an in-alphabet key always succeeds. -/
theorem searchFrom_ok_of_wf (alpha : List (Char × Nat)) (hA : alphaWF alpha = true) :
    ∀ (w : List Char) (node : TrieNode),
      TrieNode.wfB alpha.length node = true →
      (∀ c ∈ w, (alphaGet alpha c).isSome = true) →
      ∃ be : Bool × Bool, searchFrom alpha w node = .ok be := by
  intro w
  induction w with
  | nil =>
    intro node _ _
    cases node with
    | mk cs iw => exact ⟨(iw, cs.any Option.isSome), by rw [searchFrom]⟩
  | cons ch rest ih =>
    intro node hwf hmap
    cases node with
    | mk cs iw =>
      simp only [searchFrom]
      cases halpha : alphaGet alpha ch with
      | none =>
        have := hmap ch (List.mem_cons_self ch rest)
        rw [halpha] at this
        cases this
      | some i =>
        rw [TrieNode.wfB, Bool.and_eq_true_iff] at hwf
        have hi : i < cs.length := by
          have := alphaGet_lt alpha hA ch i halpha
          have hcl : cs.length = alpha.length := eq_of_beq hwf.1
          omega
        dsimp only
        rw [dif_pos hi]
        cases hg : cs.get ⟨i, hi⟩ with
        | none => exact ⟨(false, false), rfl⟩
        | some child =>
          exact ih child
            (wfListB_mem alpha.length cs hwf.2 child
              (by rw [← hg]; exact List.get_mem cs i hi))
            (fun c hc => hmap c (List.mem_cons_of_mem ch hc))

/-- Extending a key whose walk already reports `(False, False)` still reports
`(False, False)`: a dead branch stays dead and a childless final node has no
continuation. -/
theorem searchFrom_dead_extend (alpha : List (Char × Nat)) (hA : alphaWF alpha = true) :
    ∀ (w : List Char) (node : TrieNode) (c : Char),
      TrieNode.wfB alpha.length node = true →
      (alphaGet alpha c).isSome = true →
      searchFrom alpha w node = .ok (false, false) →
      searchFrom alpha (w ++ [c]) node = .ok (false, false) := by
  intro w
  induction w with
  | nil =>
    intro node c hwf hc hs
    cases node with
    | mk cs iw =>
      rw [searchFrom] at hs
      have hp := (Prod.mk.injEq _ _ _ _).mp (Except.ok.inj hs)
      rw [List.nil_append]
      simp only [searchFrom]
      cases halpha : alphaGet alpha c with
      | none =>
        rw [halpha] at hc
        cases hc
      | some i =>
        rw [TrieNode.wfB, Bool.and_eq_true_iff] at hwf
        have hi : i < cs.length := by
          have := alphaGet_lt alpha hA c i halpha
          have hcl : cs.length = alpha.length := eq_of_beq hwf.1
          omega
        dsimp only
        rw [dif_pos hi]
        have hnone : cs.get ⟨i, hi⟩ = none := by
          have hany := hp.2
          rw [List.any_eq_false] at hany
          have := hany (cs.get ⟨i, hi⟩) (List.get_mem cs i hi)
          cases hg : cs.get ⟨i, hi⟩ with
          | none => rfl
          | some v =>
            rw [hg] at this
            cases this rfl
        rw [hnone]
  | cons ch rest ih =>
    intro node c hwf hc hs
    cases node with
    | mk cs iw =>
      simp only [searchFrom] at hs
      show searchFrom alpha (ch :: (rest ++ [c])) (.mk cs iw) = .ok (false, false)
      simp only [searchFrom]
      split at hs
      · exact absurd hs (by simp)
      case h_2 i halpha =>
        split at hs
        case isTrue hi =>
          rw [TrieNode.wfB, Bool.and_eq_true_iff] at hwf
          cases hg : cs.get ⟨i, hi⟩ with
          | none =>
            rw [hg] at hs
            rw [dif_pos hi, hg]
          | some child =>
            rw [hg] at hs
            rw [dif_pos hi, hg]
            exact ih child c
              (wfListB_mem alpha.length cs hwf.2 child
                (by rw [← hg]; exact List.get_mem cs i hi))
              hc hs
        case isFalse => exact absurd hs (by simp)

/-- A `Trie.search` over in-alphabet characters in a well-formed trie never
raises. -/
theorem trie_search_ok (t : Trie) (hA : alphaWF t.alphabet = true)
    (hT : TrieNode.wfB t.alphabet.length t.root = true) (w : List Char)
    (hmap : ∀ c ∈ w, (alphaGet t.alphabet c).isSome = true) :
    ∃ be : Bool × Bool, t.search w = .ok be := by
  unfold Trie.search
  rw [if_pos (List.all_eq_true.mpr hmap)]
  exact searchFrom_ok_of_wf t.alphabet hA w t.root hT hmap

/-- A key reported `(False, False)` stays `(False, False)` after appending
one in-alphabet character. -/
theorem trie_search_dead_extend (t : Trie) (hA : alphaWF t.alphabet = true)
    (hT : TrieNode.wfB t.alphabet.length t.root = true) (w : List Char) (c : Char)
    (hc : (alphaGet t.alphabet c).isSome = true)
    (hd : t.search w = .ok (false, false)) :
    t.search (w ++ [c]) = .ok (false, false) := by
  unfold Trie.search at hd ⊢
  split at hd
  case isTrue hall =>
    rw [if_pos]
    · exact searchFrom_dead_extend t.alphabet hA w t.root c hT hc hd
    · rw [List.all_append, hall]
      simpa using hc
  case isFalse => exact absurd hd (by simp)

/-- A 2-char word cannot be `isWord` in a trie all of whose words have length
at least 3. -/
theorem trie_search_min3 (t : Trie) (hwf3 : WordFree 3 t.root)
    (w : List Char) (hw2 : w.length = 2) (b e : Bool)
    (hs : t.search w = .ok (b, e)) : b = false := by
  unfold Trie.search at hs
  split at hs
  case isTrue =>
    apply searchFrom_wordFree t.alphabet w t.root b e ?_ hs
    rw [hw2]
    exact hwf3
  case isFalse => exact absurd hs (by simp)

/-- A frontier path the variant prunes away: length exactly 2 with a letter
string that is neither a word nor an extendable prefix. -/
def deadTwo (g : Grid) (p : List Nat) : Bool :=
  p.length == 2 &&
    (match (wordOfE g p).bind g.dictionary.search with
     | .ok (false, false) => true
     | _ => false)

/-- The variant's pruning filter on length-2 candidates coincides with
dropping exactly the `deadTwo` paths. -/
theorem zip_or_filter (g : Grid) :
    ∀ (cands : List (List Nat)) (cws : List (List Char)) (vs : List (Bool × Bool)),
      (∀ q ∈ cands, q.length = 2) →
      List.mapM (wordOfE g) cands = .ok cws →
      List.mapM g.dictionary.search cws = .ok vs →
      (cands.zip vs).filterMap (fun p => if p.2.1 || p.2.2 then some p.1 else none) =
        cands.filter (fun q => !deadTwo g q) := by
  intro cands
  induction cands with
  | nil =>
    intro cws vs _ h1 h2
    rw [mapM_ok_nil _ cws h1] at h2
    rw [mapM_ok_nil _ vs h2]
    rfl
  | cons q cands ih =>
    intro cws vs hlen h1 h2
    obtain ⟨w, cws', hw, h1', rfl⟩ := mapM_ok_cons _ _ _ _ h1
    obtain ⟨v, vs', hv, h2', rfl⟩ := mapM_ok_cons _ _ _ _ h2
    obtain ⟨b, e⟩ := v
    have hq2 : q.length = 2 := hlen q (List.mem_cons_self q cands)
    have hdead : deadTwo g q = !(b || e) := by
      unfold deadTwo
      rw [hq2, hw]
      simp only [Except.bind]
      rw [hv]
      cases b <;> cases e <;> rfl
    have hrest := ih cws' vs' (fun x hx => hlen x (List.mem_cons_of_mem q hx)) h1' h2'
    rw [List.zip_cons_cons, List.filterMap_cons, List.filter_cons, hrest]
    cases b <;> cases e <;> simp [hdead]

/-- On paths of length at least 2, the variant expansion coincides with the
implemented one. -/
theorem searchVariant_deep (g : Grid) (path : List Nat) (h2 : ¬path.length < 2) :
    g.searchVariant path = g.search path := by
  unfold Grid.searchVariant Grid.search
  rw [if_neg h2, if_neg h2]

/-- Fuel monotonicity of the variant loop. -/
theorem loopVariant_mono (g : Grid) :
    ∀ (fuel : Nat) (F : List (List Nat)) (acc : Finset (List Char))
      (r : Except Err (Finset (List Char))),
      fullSearchLoopVariant g fuel F acc = some r →
      fullSearchLoopVariant g (fuel + 1) F acc = some r := by
  intro fuel
  induction fuel with
  | zero =>
    intro F acc r h
    cases h
  | succ fuel ih =>
    intro F acc r h
    cases F with
    | nil =>
      rw [fullSearchLoopVariant] at h ⊢
      exact h
    | cons p rest =>
      cases hs : g.searchVariant p with
      | error e =>
        rw [fullSearchLoopVariant] at h ⊢
        rw [hs] at h ⊢
        exact h
      | ok pr =>
        obtain ⟨ws, nps⟩ := pr
        rw [fullSearchLoopVariant] at h ⊢
        rw [hs] at h ⊢
        exact ih _ _ _ h

/-- Shape, bounds, and length of square-grid candidates. -/
theorem candidates_cells (rows : List (List Char)) (d : Trie) (N : Nat)
    (hlen : rows.length = N) (hC : ∀ row ∈ rows, row.length = N) (hN : 1 ≤ N)
    (p : List Nat) (hpne : p ≠ []) (hcells : ∀ x ∈ p, x < N * N) :
    ∀ q ∈ (Grid.ofRows rows d).candidates p,
      q ≠ [] ∧ (∀ x ∈ q, x < N * N) ∧ q.length = p.length + 1 := by
  intro q hq
  obtain ⟨l, rfl, hlm, _⟩ := candidates_shape _ p q hq
  have hlast : (p.getLast?).getD 0 ∈ p := by
    rw [List.getLast?_eq_getLast p hpne]
    exact List.getLast_mem hpne
  obtain ⟨hlook, _, _⟩ := ofRows_lookup_square rows d N hlen hC hN _ (hcells _ hlast)
  rw [hlook] at hlm
  have hlval : l < N * N := graphEntry_values_lt_square N _ _ hN l hlm
  refine ⟨by simp, ?_, by rw [List.length_append]; rfl⟩
  intro x hx
  rw [List.mem_append] at hx
  cases hx with
  | inl hx => exact hcells x hx
  | inr hx =>
    rw [List.mem_singleton] at hx
    subst hx
    exact hlval

/-- The letter string of a one-cell extension appends the new cell's letter. -/
theorem wordOfE_append_singleton (g : Grid) (p : List Nat) (l : Nat) (w : List Char)
    (ch : Char) (hw : wordOfE g p = .ok w) (hl : g.letters.get? l = some ch) :
    wordOfE g (p ++ [l]) = .ok (w ++ [ch]) := by
  unfold wordOfE at hw ⊢
  have hone : List.mapM (fun i => match g.letters.get? i with
      | some ch => Except.ok ch
      | none => Except.error Err.indexError) [l] = .ok [ch] := by
    rw [List.mapM_cons, List.mapM_nil]
    show ((match g.letters.get? l with
      | some ch => Except.ok ch
      | none => Except.error Err.indexError) >>= fun x =>
        (pure [] : Except Err (List Char)) >>= fun xs => pure (x :: xs)) = .ok [ch]
    rw [hl]
    rfl
  rw [List.mapM_append, hw, hone]
  rfl

/-- Every candidate of an in-range square-grid path has a letter string whose
characters are grid letters, and its trie lookup succeeds. -/
theorem candidates_words_ok (rows : List (List Char)) (t : Trie) (N : Nat)
    (hlen : rows.length = N) (hC : ∀ row ∈ rows, row.length = N) (hN : 1 ≤ N)
    (hA : alphaWF t.alphabet = true)
    (hmap : ∀ ch ∈ rows.flatten, (alphaGet t.alphabet ch).isSome = true)
    (hwf : TrieNode.wfB t.alphabet.length t.root = true)
    (p : List Nat) (hpne : p ≠ []) (hcells : ∀ x ∈ p, x < N * N) :
    ∃ cws valid, List.mapM (wordOfE (Grid.ofRows rows t))
        ((Grid.ofRows rows t).candidates p) = .ok cws ∧
      List.mapM (Grid.ofRows rows t).dictionary.search cws = .ok valid := by
  have hlets : (Grid.ofRows rows t).letters.length = N * N :=
    ofRows_letters_len rows t N N hlen hC
  have hword : ∀ q ∈ (Grid.ofRows rows t).candidates p,
      ∃ w, wordOfE (Grid.ofRows rows t) q = .ok w ∧
        ∀ ch ∈ w, ch ∈ rows.flatten := by
    intro q hq
    obtain ⟨_, hqc, _⟩ := candidates_cells rows t N hlen hC hN p hpne hcells q hq
    obtain ⟨w, hw, _, hin⟩ := wordOfE_exists _ q (by
      intro x hx
      rw [hlets]
      exact hqc x hx)
    exact ⟨w, hw, hin⟩
  obtain ⟨cws, hcws⟩ := mapM_ok_exists _ _
    (fun q hq => (hword q hq).imp (fun w h => h.1))
  have hsearch : ∀ w ∈ cws,
      ∃ be : Bool × Bool, (Grid.ofRows rows t).dictionary.search w = .ok be := by
    intro w hwm
    obtain ⟨q, hq, hqw⟩ := mapM_ok_mem _ _ cws hcws w hwm
    obtain ⟨w', hw', hin⟩ := hword q hq
    rw [hqw] at hw'
    obtain rfl := Except.ok.inj hw'
    exact trie_search_ok t hA hwf w (fun c hc => hmap c (hin c hc))
  obtain ⟨valid, hvalid⟩ := mapM_ok_exists _ cws hsearch
  exact ⟨cws, valid, hcws, hvalid⟩

/-- Expanding a pruned (dead two-cell) path on a square grid emits nothing
and forwards nothing: all its extensions are dead too. -/
theorem search_deadTwo (rows : List (List Char)) (t : Trie) (N : Nat)
    (hN : 2 ≤ N) (hlen : rows.length = N) (hC : ∀ row ∈ rows, row.length = N)
    (hA : alphaWF t.alphabet = true)
    (hmap : ∀ ch ∈ rows.flatten, (alphaGet t.alphabet ch).isSome = true)
    (hwf : TrieNode.wfB t.alphabet.length t.root = true)
    (p : List Nat) (hp2 : p.length = 2) (hcells : ∀ x ∈ p, x < N * N)
    (hdead : deadTwo (Grid.ofRows rows t) p = true) :
    (Grid.ofRows rows t).search p = .ok ([], []) := by
  have hpne : p ≠ [] := by
    intro h
    rw [h] at hp2
    cases hp2
  unfold deadTwo at hdead
  rw [Bool.and_eq_true_iff] at hdead
  obtain ⟨_, hmatch⟩ := hdead
  cases hw : wordOfE (Grid.ofRows rows t) p with
  | error e =>
    rw [hw] at hmatch
    simp [Except.bind] at hmatch
  | ok w =>
    rw [hw] at hmatch
    simp only [Except.bind] at hmatch
    have hsw : (Grid.ofRows rows t).dictionary.search w = .ok (false, false) := by
      cases hs : (Grid.ofRows rows t).dictionary.search w with
      | error e =>
        rw [hs] at hmatch
        exact absurd hmatch (by simp)
      | ok be =>
        obtain ⟨b, e⟩ := be
        rw [hs] at hmatch
        cases b <;> cases e
        · rfl
        · exact absurd hmatch (by simp)
        · exact absurd hmatch (by simp)
        · exact absurd hmatch (by simp)
    have hlets : (Grid.ofRows rows t).letters.length = N * N :=
      ofRows_letters_len rows t N N hlen hC
    have hcandw : ∀ q ∈ (Grid.ofRows rows t).candidates p,
        ∃ w', wordOfE (Grid.ofRows rows t) q = .ok w' ∧
          (Grid.ofRows rows t).dictionary.search w' = .ok (false, false) := by
      intro q hq
      obtain ⟨l, hql, _, _⟩ := candidates_shape _ p q hq
      obtain ⟨_, hqc, _⟩ := candidates_cells rows t N hlen hC (by omega) p hpne hcells q hq
      have hl : l < N * N := by
        apply hqc
        rw [hql, List.mem_append]
        exact Or.inr (List.mem_singleton.mpr rfl)
      obtain ⟨ch, hch⟩ : ∃ ch, (Grid.ofRows rows t).letters.get? l = some ch := by
        cases hg : (Grid.ofRows rows t).letters.get? l with
        | none =>
          rw [List.get?_eq_none] at hg
          exact absurd hl (by omega)
        | some ch => exact ⟨ch, rfl⟩
      have hchmem : ch ∈ rows.flatten := List.get?_mem hch
      refine ⟨w ++ [ch], ?_, ?_⟩
      · rw [hql]
        exact wordOfE_append_singleton _ p l w ch hw hch
      · show t.search (w ++ [ch]) = .ok (false, false)
        exact trie_search_dead_extend t hA hwf w ch (hmap ch hchmem) hsw
    obtain ⟨cws, hcws⟩ := mapM_ok_exists _ _
      (fun q hq => (hcandw q hq).imp (fun _ h => h.1))
    apply search_ok_of_dead _ p cws (by omega)
      (candidates_nonempty_short rows t N hN hlen hC p (by omega) hpne hcells) hcws
    intro w' hwm
    obtain ⟨q, hq, hqw⟩ := mapM_ok_mem _ _ cws hcws w' hwm
    obtain ⟨w'', hw'', hd''⟩ := hcandw q hq
    rw [hqw] at hw''
    obtain rfl := Except.ok.inj hw''
    exact hd''

/-- Simulation: pruning the dead two-cell paths from the frontier (as the
variant does) never changes the loop's result on a square grid whose
dictionary holds only words of length at least 3. -/
theorem sim_loop (rows : List (List Char)) (t : Trie) (N : Nat)
    (hN : 2 ≤ N) (hlen : rows.length = N) (hC : ∀ row ∈ rows, row.length = N)
    (hA : alphaWF t.alphabet = true)
    (hmap : ∀ ch ∈ rows.flatten, (alphaGet t.alphabet ch).isSome = true)
    (hwf : TrieNode.wfB t.alphabet.length t.root = true) :
    ∀ (fuel : Nat) (F : List (List Nat)) (acc : Finset (List Char))
      (r : Except Err (Finset (List Char))),
      (∀ p ∈ F, p ≠ [] ∧ ∀ x ∈ p, x < N * N) →
      fullSearchLoop (Grid.ofRows rows t) fuel F acc = some r →
      fullSearchLoopVariant (Grid.ofRows rows t) fuel
        (F.filter (fun p => !deadTwo (Grid.ofRows rows t) p)) acc = some r := by
  intro fuel
  induction fuel with
  | zero =>
    intro F acc r _ h
    cases h
  | succ fuel ih =>
    intro F acc r hinv h
    cases F with
    | nil =>
      rw [fullSearchLoop] at h
      rw [List.filter_nil, fullSearchLoopVariant]
      exact h
    | cons p rest =>
      obtain ⟨hpne, hpcells⟩ := hinv p (List.mem_cons_self p rest)
      have hrestinv : ∀ q ∈ rest, q ≠ [] ∧ ∀ x ∈ q, x < N * N :=
        fun q hq => hinv q (List.mem_cons_of_mem p hq)
      rw [fullSearchLoop] at h
      rw [List.filter_cons]
      by_cases hd : deadTwo (Grid.ofRows rows t) p = true
      · have hp2 : p.length = 2 := by
          unfold deadTwo at hd
          rw [Bool.and_eq_true_iff] at hd
          exact eq_of_beq hd.1
        have hsp := search_deadTwo rows t N hN hlen hC hA hmap hwf p hp2 hpcells hd
        rw [hsp] at h
        dsimp only at h
        rw [List.append_nil, List.toFinset_nil, Finset.union_empty] at h
        have hvar := ih rest acc r hrestinv h
        rw [hd]
        simp only [Bool.not_true]
        rw [if_neg (by simp)]
        exact loopVariant_mono _ fuel _ acc r hvar
      · have hdf : (!deadTwo (Grid.ofRows rows t) p) = true := by
          cases hdd : deadTwo (Grid.ofRows rows t) p
          · rfl
          · exact absurd hdd hd
        rw [hdf, if_pos rfl]
        by_cases hlt : p.length < 2
        · have hs1 : (Grid.ofRows rows t).search p =
              .ok ([], (Grid.ofRows rows t).candidates p) := by
            unfold Grid.search
            rw [if_pos hlt]
          rw [hs1] at h
          dsimp only at h
          rw [List.toFinset_nil, Finset.union_empty] at h
          obtain ⟨cws, valid, hcws, hvalid⟩ := candidates_words_ok rows t N hlen hC
            (by omega) hA hmap hwf p hpne hpcells
          have hp1 : 0 < p.length := List.length_pos.mpr hpne
          have hcl2 : ∀ q ∈ (Grid.ofRows rows t).candidates p, q.length = 2 := by
            intro q hq
            have := (candidates_cells rows t N hlen hC (by omega) p hpne hpcells q hq).2.2
            omega
          have hvar : (Grid.ofRows rows t).searchVariant p =
              .ok ([], ((Grid.ofRows rows t).candidates p).filter
                (fun q => !deadTwo (Grid.ofRows rows t) q)) := by
            unfold Grid.searchVariant
            rw [if_pos hlt, hcws]
            dsimp only
            rw [hvalid]
            dsimp only
            rw [zip_or_filter _ _ cws valid hcl2 hcws hvalid]
          rw [fullSearchLoopVariant, hvar]
          have hnewinv : ∀ q ∈ rest ++ (Grid.ofRows rows t).candidates p,
              q ≠ [] ∧ ∀ x ∈ q, x < N * N := by
            intro q hq
            rw [List.mem_append] at hq
            cases hq with
            | inl hq => exact hrestinv q hq
            | inr hq =>
              have := candidates_cells rows t N hlen hC (by omega) p hpne hpcells q hq
              exact ⟨this.1, this.2.1⟩
          have hrec := ih (rest ++ (Grid.ofRows rows t).candidates p) acc r hnewinv h
          rw [List.filter_append] at hrec
          show fullSearchLoopVariant _ fuel
            (rest.filter (fun p => !deadTwo (Grid.ofRows rows t) p) ++
              ((Grid.ofRows rows t).candidates p).filter
                (fun q => !deadTwo (Grid.ofRows rows t) q))
            (acc ∪ ([] : List (List Char)).toFinset) = some r
          rw [List.toFinset_nil, Finset.union_empty]
          exact hrec
        · cases hs : (Grid.ofRows rows t).search p with
          | error e =>
            rw [hs] at h
            rw [fullSearchLoopVariant, searchVariant_deep _ p hlt, hs]
            exact h
          | ok pr =>
            obtain ⟨ws, nps⟩ := pr
            rw [hs] at h
            dsimp only at h
            have hnpsinfo : ∀ q ∈ nps, q ≠ [] ∧ (∀ x ∈ q, x < N * N) ∧
                q.length = p.length + 1 := by
              intro q hq
              exact candidates_cells rows t N hlen hC (by omega) p hpne hpcells q
                (search_ok_next_sub _ p ws nps hs q hq)
            have hnewinv : ∀ q ∈ rest ++ nps, q ≠ [] ∧ ∀ x ∈ q, x < N * N := by
              intro q hq
              rw [List.mem_append] at hq
              cases hq with
              | inl hq => exact hrestinv q hq
              | inr hq =>
                have := hnpsinfo q hq
                exact ⟨this.1, this.2.1⟩
            have hrec := ih (rest ++ nps) (acc ∪ ws.toFinset) r hnewinv h
            rw [List.filter_append] at hrec
            have hnpsfix : nps.filter (fun q => !deadTwo (Grid.ofRows rows t) q) = nps := by
              rw [List.filter_eq_self]
              intro q hq
              have hql := (hnpsinfo q hq).2.2
              unfold deadTwo
              have hqb : (q.length == 2) = false := by
                rw [beq_eq_false_iff_ne]
                omega
              rw [hqb]
              rfl
            rw [hnpsfix] at hrec
            rw [fullSearchLoopVariant, searchVariant_deep _ p hlt, hs]
            exact hrec

/-- If the variant and implemented per-cell searches agree, the two all-cell
drivers agree. -/
theorem searchAll_congr (g : Grid)
    (h : ∀ i < g.R * g.C, g.full_searchVariant i = g.full_search i) :
    g.searchAllVariant = g.searchAll := by
  unfold Grid.searchAllVariant Grid.searchAll
  have hgen : ∀ (l : List Nat), (∀ i ∈ l, g.full_searchVariant i = g.full_search i) →
      ∀ acc : Option (Except Err (Finset (List Char))),
      l.foldl (fun (acc : Option (Except Err (Finset (List Char)))) i =>
        match acc, g.full_searchVariant i with
        | some (Except.ok s), some (Except.ok s') => some (Except.ok (s ∪ s'))
        | some (Except.ok _), r => r
        | r, _ => r) acc =
      l.foldl (fun (acc : Option (Except Err (Finset (List Char)))) i =>
        match acc, g.full_search i with
        | some (Except.ok s), some (Except.ok s') => some (Except.ok (s ∪ s'))
        | some (Except.ok _), r => r
        | r, _ => r) acc := by
    intro l
    induction l with
    | nil => intro _ _; rfl
    | cons i l ihl =>
      intro hl acc
      rw [List.foldl_cons, List.foldl_cons, hl i (List.mem_cons_self i l)]
      exact ihl (fun j hj => hl j (List.mem_cons_of_mem i hj)) _
  exact hgen _ (fun i hi => h i (List.mem_range.mp hi)) _

/-- C8 (amended): on every square N x N grid with N at least 2 whose letters
are all in the (well-formed) alphabet, and for every dictionary loaded by
inserting words of length at least 3 into a fresh trie, the variant of
`Grid.search` that also queries the trie for candidate strings when the path
length is below 2 (dropping candidates that are neither words nor extendable
prefixes) is observationally equivalent to the implemented variant that
unconditionally forwards all such short candidates: the full search over all
start cells produces the same final result under both.  (On thinner grids
the two runs can differ — see the counterexample.) -/
theorem C8_variant_equivalent (rows : List (List Char)) (alpha : List (Char × Nat))
    (words : List (List Char)) (t : Trie) (N : Nat)
    (hN : 2 ≤ N) (hlen : rows.length = N) (hC : ∀ row ∈ rows, row.length = N)
    (hA : alphaWF alpha = true)
    (hmap : ∀ ch ∈ rows.flatten, (alphaGet alpha ch).isSome = true)
    (hwords : ∀ w ∈ words, 3 ≤ w.length)
    (ht : Trie.insertAll (Trie.new alpha) words = .ok t) :
    (Grid.ofRows rows t).searchAllVariant = (Grid.ofRows rows t).searchAll := by
  obtain ⟨halpha, hwf, hwf3⟩ := insertAll_inv alpha words (Trie.new alpha) t ht rfl
    (wfB_new alpha.length) (wordFree_new alpha.length 3) hwords
  have hA' : alphaWF t.alphabet = true := by
    rw [halpha]
    exact hA
  have hmap' : ∀ ch ∈ rows.flatten, (alphaGet t.alphabet ch).isSome = true := by
    rw [halpha]
    exact hmap
  have hwf' : TrieNode.wfB t.alphabet.length t.root = true := by
    rw [halpha]
    exact hwf
  apply searchAll_congr
  intro i hi
  have hRC : (Grid.ofRows rows t).R * (Grid.ofRows rows t).C = N * N := by
    have h1 : (Grid.ofRows rows t).R = N := hlen
    have h2 : (Grid.ofRows rows t).C = N := by
      show (rows.headD []).length = N
      cases rows with
      | nil => simp at hlen; omega
      | cons row rest => exact hC row (List.mem_cons_self row rest)
    rw [h1, h2]
  rw [hRC] at hi
  obtain ⟨r, hr⟩ := full_search_some rows t i
  have hr' : fullSearchLoop (Grid.ofRows rows t) (Grid.ofRows rows t).fuelBound
      [[i]] ∅ = some r := hr
  have hsim := sim_loop rows t N hN hlen hC hA' hmap' hwf'
    (Grid.ofRows rows t).fuelBound [[i]] ∅ r
    (by
      intro p hp
      rw [List.mem_singleton] at hp
      subst hp
      refine ⟨by simp, ?_⟩
      intro x hx
      rw [List.mem_singleton] at hx
      subst hx
      exact hi)
    hr'
  have hfil : ([[i]] : List (List Nat)).filter
      (fun p => !deadTwo (Grid.ofRows rows t) p) = [[i]] := by
    rw [List.filter_eq_self]
    intro q hq
    rw [List.mem_singleton] at hq
    subst hq
    rfl
  rw [hfil] at hsim
  show (Grid.ofRows rows t).full_searchVariant i = (Grid.ofRows rows t).full_search i
  unfold Grid.full_searchVariant Grid.full_search
  rw [hsim, hr']

/-- The trie over the alphabet `a`, `b` holding exactly the word `bbb`. -/
def trieBBB : Trie :=
  match (Trie.new alphaAB).insert ['b', 'b', 'b'] with
  | .ok t => t
  | .error _ => Trie.new alphaAB

/-- The 1 x 2 grid `a b` with dictionary `bbb`. -/
def grid12b : Grid := Grid.ofRows rows12 trieBBB

/-- C8 counterexample: the claim quantifies over every grid, but on the
1 x 2 grid `a b` with the min-length-3 dictionary `bbb` the implemented full
search crashes on the trapped path `[0, 1]` while the variant prunes the dead
candidate `ab` early and returns the empty set — so the two are not
observationally equivalent as stated. -/
theorem C8_counterexample_1x2 :
    3 ≤ (['b', 'b', 'b'] : List Char).length ∧
    Trie.insertAll (Trie.new alphaAB) [['b', 'b', 'b']] = .ok trieBBB ∧
    grid12b.searchAll = some (.error .emptyUnpack) ∧
    grid12b.searchAllVariant = some (.ok ∅) :=
  ⟨by decide, by rfl, by rfl, by rfl⟩

/-- Witness for C8 (amended) on the 2 x 2 `cats` grid with dictionary
`cat`. -/
theorem C8_variant_equivalent_witness :
    gridCats.searchAllVariant = gridCats.searchAll :=
  C8_variant_equivalent rowsCats alphaCats [['c', 'a', 't']] trieCat 2
    (by decide) rfl (by decide) (by decide) (by decide) (by decide) (by rfl)
